import Mathlib

/-!
Verification of the row-deduplication (DISTINCT) operator of the cudf
columnar engine, and of the `bool8` wrapper type.

The repository snapshot contains the test suites
(`cpp/tests/stream_compaction/distinct_tests.cpp`,
`cpp/tests/wrappers/bools_test.cpp`) but not the implementation sources of
`cudf::distinct` nor the `bool8` wrapper header.  The operator and the
wrapper are therefore modelled from the specification (`spec.md`) and from
the contracts asserted by the tests, as shallow executable Lean
definitions: columns are tagged unions (primitive / list / struct) with
validity bitmaps and offset buffers, and every recursive function over
columns carries an explicit fuel argument (structural recursion on the
fuel) so that all definitions evaluate by kernel reduction on concrete
fixtures.  `colDepth` gives the canonical adequate fuel.
-/

namespace Cudf

/-- Modelled from the spec: floating-point payload of a primitive value.
`spec.md` §4.1 distinguishes only NaN payloads from ordinary numeric
values ("if the type is floating-point and both values are NaN ...
otherwise standard numeric equality"), so a float is either NaN or a
rational number. -/
inductive FloatVal where
  | nan : FloatVal
  | fin (q : Rat) : FloatVal
deriving DecidableEq

/-- Modelled from the spec: a primitive scalar value
(numeric / boolean / string, `spec.md` §3 "Column ... PRIMITIVE"). -/
inductive Scalar where
  | int (v : Int) : Scalar
  | flt (v : FloatVal) : Scalar
  | str (s : String) : Scalar
deriving DecidableEq

instance : Inhabited Scalar := ⟨.int 0⟩

/-- Type tag of a primitive column, used for schemas. -/
inductive PTag where
  | tInt : PTag
  | tFlt : PTag
  | tStr : PTag
deriving DecidableEq

/-- Logical schema (type shape) of a column. -/
inductive Schema where
  | sPrim (t : PTag) : Schema
  | sList (ch : Schema) : Schema
  | sStruct (chs : List Schema) : Schema

/-- Decoded logical value of one row of a column: `none` at a level means
the value is null at that level. -/
inductive Val where
  | vprim (v : Option Scalar) : Val
  | vlist (v : Option (List Val)) : Val
  | vstruct (v : Option (List Val)) : Val

mutual
/-- Modelled from the spec: a column (`spec.md` §3).  A column is a tagged
value: PRIMITIVE (values plus a validity bitmap), LIST (an offsets
sequence of length N+1 into a child column plus a validity bitmap), or
STRUCT (child columns plus a validity bitmap).  Validity bitmaps are
lists of `Bool`; positions beyond the end of the bitmap read as valid
(`true`), so `[]` encodes an all-valid column. -/
inductive Column where
  | prim (t : PTag) (vals : List Scalar) (valid : List Bool) : Column
  | list (offs : List Nat) (valid : List Bool) (child : Column) : Column
  | struct (valid : List Bool) (children : Columns) : Column
/-- The child columns of a STRUCT column. -/
inductive Columns where
  | nil : Columns
  | cons (c : Column) (cs : Columns) : Columns
end

instance : Inhabited Column := ⟨.prim .tInt [] []⟩

/-- View the children of a struct as a `List`. -/
def Columns.toList : Columns → List Column
  | .nil => []
  | .cons c cs => c :: cs.toList

/-- Build struct children from a `List`. -/
def Columns.ofList : List Column → Columns
  | [] => .nil
  | c :: cs => .cons c (Columns.ofList cs)

mutual
/-- Nesting depth of a column; the canonical fuel for the fuel-indexed
recursive functions below. -/
def colDepth : Column → Nat
  | .prim _ _ _ => 1
  | .list _ _ ch => colDepth ch + 1
  | .struct _ chs => colsDepth chs + 1
/-- Maximum depth over a sequence of columns. -/
def colsDepth : Columns → Nat
  | .nil => 0
  | .cons c cs => max (colDepth c) (colsDepth cs)
end

/-- Modelled from the spec: the null/NaN-aware scalar comparator for two
present values (`spec.md` §4.1): both NaN compare as `nan_equality ==
ALL_EQUAL`; exactly one NaN is unequal; otherwise standard equality. -/
def scalarEq (na : Bool) : Scalar → Scalar → Bool
  | .int a, .int b => decide (a = b)
  | .flt .nan, .flt .nan => na
  | .flt (.fin a), .flt (.fin b) => decide (a = b)
  | .str a, .str b => decide (a = b)
  | _, _ => false

/-- Modelled from the spec: the null/NaN-aware value comparator
`equal(a, b, valid_a, valid_b)` of `spec.md` §4.1 applied to rows `i`, `j`
of a primitive buffer: mismatched validity is unequal, two nulls compare
as `null_equality == EQUAL`, two present values use `scalarEq`. -/
def primEq (ne na : Bool) (vs : List Scalar) (val : List Bool) (i j : Nat) : Bool :=
  if val.getD i true && val.getD j true then
    scalarEq na (vs.getD i default) (vs.getD j default)
  else (!(val.getD i true) && !(val.getD j true)) && ne

/-- Modelled from the spec: the recursive row comparator of `spec.md`
§4.2 on a single column, fuel-indexed.  LIST values compare by length
then elementwise through the offsets; STRUCT values compare all child
fields; a null at the current level applies the §4.1 null rule and never
descends into masked children.  Fuel exhaustion returns `false`; any fuel
`≥ colDepth` of the column is enough (see `colEqF_fuel`). -/
def colEqF (ne na : Bool) : Nat → Column → Nat → Nat → Bool
  | 0, _, _, _ => false
  | _ + 1, .prim _ vs val, i, j => primEq ne na vs val i j
  | f + 1, .list o v ch, i, j =>
    let vi := v.getD i true
    let vj := v.getD j true
    if vi && vj then
      let si := o.getD i 0
      let sj := o.getD j 0
      let ni := o.getD (i + 1) 0 - si
      let nj := o.getD (j + 1) 0 - sj
      decide (ni = nj) && (List.range ni).all (fun k => colEqF ne na f ch (si + k) (sj + k))
    else (!vi && !vj) && ne
  | f + 1, .struct v chs, i, j =>
    let vi := v.getD i true
    let vj := v.getD j true
    if vi && vj then chs.toList.all (fun c => colEqF ne na f c i j)
    else (!vi && !vj) && ne

/-- Row comparator on one column with adequate fuel. -/
def colEq (ne na : Bool) (c : Column) (i j : Nat) : Bool :=
  colEqF ne na (colDepth c) c i j

/-- Is a scalar a floating-point NaN payload? -/
def isNaN : Scalar → Bool
  | .flt .nan => true
  | _ => false

/-- Validity of row `i` at the top level of a column. -/
def topValid : Column → Nat → Bool
  | .prim _ _ val, i => val.getD i true
  | .list _ v _, i => v.getD i true
  | .struct v _, i => v.getD i true

/-- Row `i` of a column is clean when no nesting level of its value is
null, and, when `na = false` (NaN UNEQUAL), no leaf is NaN; fuel-indexed. -/
def cleanF (na : Bool) : Nat → Column → Nat → Bool
  | 0, _, _ => false
  | _ + 1, .prim _ vs val, i => val.getD i true && (na || !(isNaN (vs.getD i default)))
  | f + 1, .list o v ch, i =>
    v.getD i true && (List.range (o.getD (i + 1) 0 - o.getD i 0)).all
      (fun k => cleanF na f ch (o.getD i 0 + k))
  | f + 1, .struct v chs, i =>
    v.getD i true && chs.toList.all (fun c => cleanF na f c i)

/-- Row `i` of a column contains no null (and no NaN when `na = false`). -/
def cleanRow (na : Bool) (c : Column) (i : Nat) : Bool := cleanF na (colDepth c) c i

/-- Schema of a column, fuel-indexed. -/
def schemaF : Nat → Column → Schema
  | 0, _ => .sPrim .tInt
  | _ + 1, .prim t _ _ => .sPrim t
  | f + 1, .list _ _ ch => .sList (schemaF f ch)
  | f + 1, .struct _ chs => .sStruct (chs.toList.map (schemaF f))

/-- Schema (type shape) of a column. -/
def schema (c : Column) : Schema := schemaF (colDepth c) c

/-- Decoded logical value of row `i` of a column, fuel-indexed: the
value of the row with all masked (ancestor-null) storage stripped. -/
def rowValF : Nat → Column → Nat → Val
  | 0, _, _ => .vprim none
  | _ + 1, .prim _ vs val, i =>
    .vprim (if val.getD i true then some (vs.getD i default) else none)
  | f + 1, .list o v ch, i =>
    .vlist (if v.getD i true then
      some ((List.range (o.getD (i + 1) 0 - o.getD i 0)).map
        (fun k => rowValF f ch (o.getD i 0 + k)))
    else none)
  | f + 1, .struct v chs, i =>
    .vstruct (if v.getD i true then some (chs.toList.map (fun c => rowValF f c i)) else none)

/-- Decoded logical value of row `i` of a column. -/
def rowVal (c : Column) (i : Nat) : Val := rowValF (colDepth c) c i

/-- Modelled from the spec: the keep policy `ANY | FIRST | LAST | NONE`
of `spec.md` §3/§4.5, resolved per equivalence class. -/
inductive Keep where
  | any : Keep
  | first : Keep
  | last : Keep
  | none : Keep

/-- Modelled from the spec: the recursive row comparator across the key
columns (`spec.md` §4.2): logical AND of `colEq` over the key columns. -/
def rowEq (cols : List Column) (keys : List Nat) (ne na : Bool) (i j : Nat) : Bool :=
  keys.all (fun k => colEq ne na (cols.getD k default) i j)

/-- Row `i` has no equal row before it (it is the first of its class). -/
def keepFirstOk (re : Nat → Nat → Bool) (i : Nat) : Bool :=
  (List.range i).all (fun j => !re j i)

/-- Row `i` has no equal row after it (it is the last of its class). -/
def keepLastOk (re : Nat → Nat → Bool) (n i : Nat) : Bool :=
  (List.range n).all (fun j => decide (j ≤ i) || !re i j)

/-- Row `i` has no other equal row (its class is a singleton). -/
def keepNoneOk (re : Nat → Nat → Bool) (n i : Nat) : Bool :=
  (List.range n).all (fun j => decide (j = i) || !re i j)

/-- Modelled from the spec: the representative selector of `spec.md`
§4.5.  Given the row count `n` and the row-equality relation `re`,
returns the selected row indices in increasing order: FIRST keeps the
minimum index of each class, LAST the maximum, NONE the sole member of
singleton classes.  ANY may keep an arbitrary member per class; this
model makes the conformant choice of the first occurrence. -/
def selectIndices : Keep → Nat → (Nat → Nat → Bool) → List Nat
  | .any, n, re => (List.range n).filter (keepFirstOk re)
  | .first, n, re => (List.range n).filter (keepFirstOk re)
  | .last, n, re => (List.range n).filter (keepLastOk re n)
  | .none, n, re => (List.range n).filter (keepNoneOk re n)

/-- Logical content of the output table: the column schemas and the list
of decoded output rows (each row lists the value of every column). -/
structure Output where
  schemas : List Schema
  rows : List (List Val)

/-- Modelled from the spec: the `distinct` entry point (`spec.md` §6,
§4.4, §4.5).  `cols` are the underlying column buffers, `off`/`n` the
logical row window of the table view (`off = 0`, `n` = row count for an
unsliced table).  Empty inputs (zero rows, zero columns, or an empty key
list) short-circuit to an empty output table with the input schema
(`spec.md` §4.4); otherwise an out-of-range key column index is an
invalid-argument failure (`spec.md` §7), and the main path selects one
representative per equivalence class and gathers the full rows. -/
def distinct (cols : List Column) (off n : Nat) (keys : List Nat)
    (keep : Keep) (ne na : Bool) : Except Unit Output :=
  if n == 0 || cols.isEmpty || keys.isEmpty then .ok ⟨cols.map schema, []⟩
  else if keys.any (fun k => decide (cols.length ≤ k)) then .error ()
  else
    .ok ⟨cols.map schema,
      (selectIndices keep n (fun i j => rowEq cols keys ne na (off + i) (off + j))).map
        (fun i => cols.map (fun c => rowVal c (off + i)))⟩

/-- Reflexive closure of the row-equality relation: the relation whose
equivalence classes partition the rows (`spec.md` §3 "Equivalence
class"); under `null_equality == UNEQUAL` a null-keyed row is equal to no
row, so its class is the singleton of itself. -/
def reflClose (re : Nat → Nat → Bool) (i j : Nat) : Bool :=
  re i j || decide (i = j)

/-- The equivalence class of row `i` among rows `[0, n)`. -/
def classOf (n : Nat) (re : Nat → Nat → Bool) (i : Nat) : Finset Nat :=
  (Finset.range n).filter (fun j => reflClose re i j = true)

/-- The set of equivalence classes of rows `[0, n)`. -/
def allClasses (n : Nat) (re : Nat → Nat → Bool) : Finset (Finset Nat) :=
  (Finset.range n).image (classOf n re)

/-- Number of equivalence classes. -/
def classCount (n : Nat) (re : Nat → Nat → Bool) : Nat := (allClasses n re).card

/-- Number of singleton equivalence classes. -/
def singletonCount (n : Nat) (re : Nat → Nat → Bool) : Nat :=
  ((allClasses n re).filter (fun s => s.card = 1)).card

/-- All key values of row `i` are clean (null-free, and NaN-free when
`na = false`). -/
def cleanRowKeys (cols : List Column) (keys : List Nat) (na : Bool) (i : Nat) : Bool :=
  keys.all (fun k => cleanRow na (cols.getD k default) i)

/-- Fixture from `DistinctKeepAny.NullableLists`: the list key column
`[[], [], [1], [1], [2,2], [2], [2], NULL, [2,2], [2,2], NULL]`. -/
def nullableListsCol : Column :=
  .list [0, 0, 0, 1, 2, 4, 5, 6, 6, 8, 10, 10]
    [true, true, true, true, true, true, true, false, true, true, false]
    (.prim .tInt [.int 1, .int 1, .int 2, .int 2, .int 2, .int 2, .int 2, .int 2,
      .int 2, .int 2] [])

/-- Fixture from `DistinctKeepFirstLastNone.InputWithNaNsEqual`: the
float key column `[20, NaN, NaN, 19, 21, 19, 22]`. -/
def nanKeysCol : Column :=
  .prim .tFlt [.flt (.fin 20), .flt .nan, .flt .nan, .flt (.fin 19), .flt (.fin 21),
    .flt (.fin 19), .flt (.fin 22)] []

/-- Fixture from `DistinctKeepAny.BasicLists`: the list key column
`[[], [], [1], [1,1], [1], [1,2], [2,2], [2], [2], [2,1], [2,2], [2,2]]`. -/
def basicListsCol : Column :=
  .list [0, 0, 0, 1, 3, 4, 6, 8, 9, 10, 12, 14, 16] []
    (.prim .tInt [.int 1, .int 1, .int 1, .int 1, .int 1, .int 2, .int 2, .int 2,
      .int 2, .int 2, .int 2, .int 1, .int 2, .int 2, .int 2, .int 2] [])

/-- Fixture from `DistinctKeepAny.EmptyKeys`: a six-row integer column
with one null. -/
def emptyKeysCol : Column :=
  .prim .tInt [.int 5, .int 4, .int 3, .int 5, .int 8, .int 1]
    [true, false, true, true, true, true]

/-- Modelled from the spec: the `cudf::experimental::bool8` wrapper
header (`cudf/wrappers/bool.hpp`) is not part of the snapshot; its
contract is taken from the assertions of
`cpp/tests/wrappers/bools_test.cpp`, which compare every operation
against `static_cast<uint8_t>(static_cast<bool>(v))`.  `boolToUint8` is
that reference cast. -/
def boolToUint8 (b : Bool) : Nat := if b then 1 else 0

/-- C++ `static_cast<bool>` for an integral value. -/
def intToBool (v : Int) : Bool := decide (v ≠ 0)

/-- C++ `static_cast<bool>` for a floating value (NaN is truthy). -/
def floatToBool : FloatVal → Bool
  | .nan => true
  | .fin q => decide (q ≠ 0)

/-- Modelled from the spec: the `bool8` wrapper stores one `uint8_t`. -/
structure Bool8 where
  value : Nat

/-- Construct `bool8` from an integral value (the constructor casts the
input to `bool` and stores the result as `uint8_t`). -/
def Bool8.ofInt (v : Int) : Bool8 := ⟨boolToUint8 (intToBool v)⟩

/-- Construct `bool8` from a floating value. -/
def Bool8.ofFloat (x : FloatVal) : Bool8 := ⟨boolToUint8 (floatToBool x)⟩

/-- Construct `bool8` from a `bool`. -/
def Bool8.ofBool (b : Bool) : Bool8 := ⟨boolToUint8 b⟩

/-- `bool8` equality compares the stored bytes. -/
def Bool8.beq (a b : Bool8) : Bool := a.value == b.value

/-- `bool8` less-than compares the stored bytes. -/
def Bool8.blt (a b : Bool8) : Bool := decide (a.value < b.value)

/-- `bool8` greater-than compares the stored bytes. -/
def Bool8.bgt (a b : Bool8) : Bool := decide (b.value < a.value)

/-- Combine two hash contributions order-sensitively (`spec.md` §4.3). -/
def hashCombine (a b : Nat) : Nat := a * 31 + b + 7

/-- Hash of an integer. -/
def intHash (v : Int) : Nat := if 0 ≤ v then 2 * v.toNat + 3 else 2 * (-v).toNat + 4

/-- Modelled from the spec: scalar hash (`spec.md` §4.3); every NaN
payload hashes to the same sentinel irrespective of bit pattern. -/
def hashScalar : Scalar → Nat
  | .int v => intHash v
  | .flt .nan => 1
  | .flt (.fin q) => hashCombine (intHash q.num) q.den
  | .str s => s.data.foldl (fun h c => hashCombine h c.toNat) 5

/-- Modelled from the spec: the row hasher of `spec.md` §4.3,
fuel-indexed.  A null at any level contributes the fixed sentinel `2`
for that subtree, independent of the masked descendant payload; LIST and
STRUCT combine element/field hashes order-sensitively. -/
def colHashF : Nat → Column → Nat → Nat
  | 0, _, _ => 0
  | _ + 1, .prim _ vs val, i =>
    if val.getD i true then hashScalar (vs.getD i default) + 10 else 2
  | f + 1, .list o v ch, i =>
    if v.getD i true then
      (List.range (o.getD (i + 1) 0 - o.getD i 0)).foldl
        (fun h k => hashCombine h (colHashF f ch (o.getD i 0 + k))) 11
    else 2
  | f + 1, .struct v chs, i =>
    if v.getD i true then
      chs.toList.foldl (fun h c => hashCombine h (colHashF f c i)) 13
    else 2

/-- Row hash on one column with adequate fuel. -/
def colHash (c : Column) (i : Nat) : Nat := colHashF (colDepth c) c i

/-- Mask equivalence, fuel-indexed: `maskEquivF n m c c'` holds when the
two columns have identical structure (offsets, validity and values)
at every position reachable from a live row (`m p = true`) that is not
masked by an ancestor null; storage under a null ancestor (and at
non-live rows) is unconstrained "don't-care" payload. -/
def maskEquivF : Nat → (Nat → Bool) → Column → Column → Bool
  | 0, _, _, _ => false
  | _ + 1, m, .prim t vs val, .prim t' vs' val' =>
    decide (t = t') && decide (vs.length = vs'.length) &&
    decide (val.length = val'.length) &&
    (List.range (max vs.length val.length)).all (fun p =>
      !(m p) || (val.getD p true == val'.getD p true &&
        (!(val.getD p true) || decide (vs.getD p default = vs'.getD p default))))
  | f + 1, m, .list o v ch, .list o' v' ch' =>
    decide (o = o') && decide (v.length = v'.length) &&
    (List.range v.length).all (fun p => !(m p) || (v.getD p true == v'.getD p true)) &&
    maskEquivF f (fun q => (List.range (o.length - 1)).any
      (fun p => m p && v.getD p true && decide (o.getD p 0 ≤ q) &&
        decide (q < o.getD (p + 1) 0))) ch ch'
  | f + 1, m, .struct v chs, .struct v' chs' =>
    decide (v.length = v'.length) &&
    (List.range v.length).all (fun p => !(m p) || (v.getD p true == v'.getD p true)) &&
    decide (chs.toList.length = chs'.toList.length) &&
    (List.range chs.toList.length).all (fun k =>
      maskEquivF f (fun p => m p && v.getD p true)
        (chs.toList.getD k default) (chs'.toList.getD k default))
  | _ + 1, _, .prim _ _ _, _ => false
  | _ + 1, _, .list _ _ _, _ => false
  | _ + 1, _, .struct _ _, _ => false

/-- Mask equivalence with adequate fuel. -/
def maskEquivB (m : Nat → Bool) (c c' : Column) : Bool :=
  maskEquivF (colDepth c) m c c'

/-- Fixture modelled on `DistinctKeepAny.StructsOfStructs`: a struct
column whose row 1 is null, with garbage child payload 99 under the
null. -/
def maskedStructA : Column :=
  .struct [true, false] (.cons (.prim .tInt [.int 1, .int 99] [true, true]) .nil)

/-- The same struct column with different garbage child payload 77 under
the null row. -/
def maskedStructB : Column :=
  .struct [true, false] (.cons (.prim .tInt [.int 1, .int 77] [true, true]) .nil)

/-- Window of `cnt` elements of a buffer starting at `off`. -/
def sliceL {α : Type} (l : List α) (off cnt : Nat) : List α := (l.drop off).take cnt

/-- Row count of a column (`spec.md` §3: all columns of a table share
one logical row count). -/
def nrowsOf : Column → Nat
  | .prim _ vs _ => vs.length
  | .list o _ _ => o.length - 1
  | .struct v _ => v.length

/-- Modelled from the spec: materializing the row window `[off, off+cnt)`
of a column into a standalone column (`spec.md` §8 "Slicing invariance":
"materializing the slice into a standalone table"), fuel-indexed.  LIST
offsets are rebased to the window's first element; the child is
materialized to the covered element range. -/
def materializeColF : Nat → Column → Nat → Nat → Column
  | 0, c, _, _ => c
  | _ + 1, .prim t vs val, off, cnt => .prim t (sliceL vs off cnt) (sliceL val off cnt)
  | f + 1, .list o v ch, off, cnt =>
    .list ((sliceL o off (cnt + 1)).map (fun x => x - o.getD off 0)) (sliceL v off cnt)
      (materializeColF f ch (o.getD off 0) (o.getD (off + cnt) 0 - o.getD off 0))
  | f + 1, .struct v chs, off, cnt =>
    .struct (sliceL v off cnt)
      (Columns.ofList (chs.toList.map (fun c => materializeColF f c off cnt)))

/-- Materialize a row window with adequate fuel. -/
def materializeCol (c : Column) (off cnt : Nat) : Column :=
  materializeColF (colDepth c) c off cnt

/-- Structural well-formedness of a column holding `n` rows: buffer
lengths agree with the row count, list offsets are monotone and stay
within the child, recursively; fuel-indexed. -/
def wfColF : Nat → Column → Nat → Bool
  | 0, _, _ => false
  | _ + 1, .prim _ vs val, n => decide (vs.length = n) && decide (val.length = n)
  | f + 1, .list o v ch, n =>
    decide (o.length = n + 1) && decide (v.length = n) &&
    (List.range n).all (fun k => decide (o.getD k 0 ≤ o.getD (k + 1) 0)) &&
    decide (o.getD n 0 ≤ nrowsOf ch) && wfColF f ch (nrowsOf ch)
  | f + 1, .struct v chs, n =>
    decide (v.length = n) && chs.toList.all (fun c => wfColF f c n)

/-- Well-formedness with adequate fuel. -/
def wfCol (c : Column) (n : Nat) : Bool := wfColF (colDepth c) c n

/-- Passenger column for the slicing witness. -/
def slicePassenger : Column :=
  .prim .tInt [.int 9, .int 10, .int 11, .int 12, .int 13] [true, true, true, true, true]

/-- List key column for the slicing witness: rows
`[[5,5], [1], [], [1,2], [9,9]]`; rows 0 and 4 lie outside the sliced
window `[1, 4)`. -/
def sliceListKey : Column :=
  .list [0, 2, 3, 3, 5, 7] [true, true, true, true, true]
    (.prim .tInt [.int 5, .int 5, .int 1, .int 1, .int 2, .int 9, .int 9]
      [true, true, true, true, true, true, true])

theorem Columns.toList_ofList (l : List Column) : (Columns.ofList l).toList = l := by
  induction l with
  | nil => rfl
  | cons c cs ih => simp [Columns.ofList, Columns.toList, ih]

theorem colDepth_pos (c : Column) : 0 < colDepth c := by
  cases c <;> simp [colDepth]

theorem colDepth_le_colsDepth : ∀ (chs : Columns) (c : Column),
    c ∈ chs.toList → colDepth c ≤ colsDepth chs
  | .nil, c, h => by simp [Columns.toList] at h
  | .cons c' cs, c, h => by
    simp only [Columns.toList, List.mem_cons] at h
    rcases h with rfl | h
    · simp [colsDepth]
    · exact le_trans (colDepth_le_colsDepth cs c h) (by simp [colsDepth])

theorem list_all_congr {α : Type} {l : List α} {p q : α → Bool}
    (h : ∀ x ∈ l, p x = q x) : l.all p = l.all q := by
  apply Bool.eq_iff_iff.mpr
  rw [List.all_eq_true, List.all_eq_true]
  constructor <;> intro hall x hx
  · rw [← h x hx]
    exact hall x hx
  · rw [h x hx]
    exact hall x hx

theorem colEqF_fuel_aux (ne na : Bool) (n : Nat) : ∀ (c : Column) (f f' i j : Nat),
    colDepth c ≤ f → colDepth c ≤ f' → f ≤ n → f' ≤ n →
    colEqF ne na f c i j = colEqF ne na f' c i j := by
  induction n with
  | zero =>
    intro c f f' i j hf hf' hn hn'
    have := colDepth_pos c
    omega
  | succ n ih =>
    intro c f f' i j hf hf' hn hn'
    have hp := colDepth_pos c
    obtain ⟨g, rfl⟩ := Nat.exists_eq_succ_of_ne_zero (show f ≠ 0 by omega)
    obtain ⟨g', rfl⟩ := Nat.exists_eq_succ_of_ne_zero (show f' ≠ 0 by omega)
    cases c with
    | prim t vs val => rfl
    | list o v ch =>
      have hch : colDepth (Column.list o v ch) = colDepth ch + 1 := rfl
      rw [hch] at hf hf'
      simp only [colEqF]
      have : ((List.range (o.getD (i + 1) 0 - o.getD i 0)).all
            (fun k => colEqF ne na g ch (o.getD i 0 + k) (o.getD j 0 + k))) =
          ((List.range (o.getD (i + 1) 0 - o.getD i 0)).all
            (fun k => colEqF ne na g' ch (o.getD i 0 + k) (o.getD j 0 + k))) := by
        apply list_all_congr
        intro k _
        exact ih ch g g' _ _ (by omega) (by omega) (by omega) (by omega)
      rw [this]
    | struct v chs =>
      have hch : colDepth (Column.struct v chs) = colsDepth chs + 1 := rfl
      rw [hch] at hf hf'
      simp only [colEqF]
      have : (chs.toList.all (fun c => colEqF ne na g c i j)) =
          (chs.toList.all (fun c => colEqF ne na g' c i j)) := by
        apply list_all_congr
        intro c hc
        have := colDepth_le_colsDepth chs c hc
        exact ih c g g' i j (by omega) (by omega) (by omega) (by omega)
      rw [this]

/-- Fuel indifference: any two adequate fuels give the same comparison. -/
theorem colEqF_fuel (ne na : Bool) (c : Column) (f f' : Nat)
    (hf : colDepth c ≤ f) (hf' : colDepth c ≤ f') (i j : Nat) :
    colEqF ne na f c i j = colEqF ne na f' c i j :=
  colEqF_fuel_aux ne na (max f f') c f f' i j hf hf' (le_max_left f f') (le_max_right f f')

/-- Unfolding: primitive columns. -/
theorem colEq_prim (ne na : Bool) (t : PTag) (vs : List Scalar) (val : List Bool)
    (i j : Nat) : colEq ne na (.prim t vs val) i j = primEq ne na vs val i j := rfl

/-- Unfolding: list columns, with recursive calls re-expressed via `colEq`. -/
theorem colEq_list (ne na : Bool) (o : List Nat) (v : List Bool) (ch : Column)
    (i j : Nat) :
    colEq ne na (.list o v ch) i j =
      (let vi := v.getD i true
       let vj := v.getD j true
       if vi && vj then
         let si := o.getD i 0
         let sj := o.getD j 0
         let ni := o.getD (i + 1) 0 - si
         let nj := o.getD (j + 1) 0 - sj
         decide (ni = nj) && (List.range ni).all (fun k => colEq ne na ch (si + k) (sj + k))
       else (!vi && !vj) && ne) := rfl

/-- Unfolding: struct columns, with recursive calls re-expressed via `colEq`. -/
theorem colEq_struct (ne na : Bool) (v : List Bool) (chs : Columns)
    (i j : Nat) :
    colEq ne na (.struct v chs) i j =
      (let vi := v.getD i true
       let vj := v.getD j true
       if vi && vj then chs.toList.all (fun c => colEq ne na c i j)
       else (!vi && !vj) && ne) := by
  show colEqF ne na (colsDepth chs + 1) (.struct v chs) i j = _
  simp only [colEqF]
  congr 1
  apply list_all_congr
  intro c hc
  have := colDepth_le_colsDepth chs c hc
  exact colEqF_fuel ne na c (colsDepth chs) (colDepth c) (by omega) (le_refl _) i j

/-- Flattened form of `colEq_list`. -/
theorem colEq_listF (ne na : Bool) (o : List Nat) (v : List Bool) (ch : Column)
    (i j : Nat) :
    colEq ne na (.list o v ch) i j =
      if v.getD i true && v.getD j true then
        decide (o.getD (i + 1) 0 - o.getD i 0 = o.getD (j + 1) 0 - o.getD j 0) &&
          (List.range (o.getD (i + 1) 0 - o.getD i 0)).all
            (fun k => colEq ne na ch (o.getD i 0 + k) (o.getD j 0 + k))
      else (!(v.getD i true) && !(v.getD j true)) && ne := rfl

/-- Flattened form of `colEq_struct`. -/
theorem colEq_structF (ne na : Bool) (v : List Bool) (chs : Columns) (i j : Nat) :
    colEq ne na (.struct v chs) i j =
      if v.getD i true && v.getD j true then
        chs.toList.all (fun c => colEq ne na c i j)
      else (!(v.getD i true) && !(v.getD j true)) && ne := by
  rw [colEq_struct]

theorem scalarEq_symm (na : Bool) (a b : Scalar) : scalarEq na a b = scalarEq na b a := by
  cases a with
  | int x => cases b with
    | int y => simp [scalarEq, eq_comm]
    | flt y => cases y <;> rfl
    | str y => rfl
  | flt x => cases x <;> cases b with
    | int y => rfl
    | flt y => cases y <;> simp [scalarEq, eq_comm]
    | str y => rfl
  | str x => cases b with
    | int y => rfl
    | flt y => cases y <;> rfl
    | str y => simp [scalarEq, eq_comm]

theorem scalarEq_trans (na : Bool) (a b c : Scalar) (h1 : scalarEq na a b = true)
    (h2 : scalarEq na b c = true) : scalarEq na a c = true := by
  cases a with
  | int x => cases b with
    | int y =>
      cases c with
      | int z => simp only [scalarEq, decide_eq_true_eq] at h1 h2 ⊢; omega
      | flt z => cases z <;> simp [scalarEq] at h2
      | str z => simp [scalarEq] at h2
    | flt y => cases y <;> simp [scalarEq] at h1
    | str y => simp [scalarEq] at h1
  | flt x => cases x with
    | nan => cases b with
      | int y => simp [scalarEq] at h1
      | flt y => cases y with
        | nan => cases c with
          | int z => simp [scalarEq] at h2
          | flt z => cases z with
            | nan => exact h1
            | fin q => simp [scalarEq] at h2
          | str z => simp [scalarEq] at h2
        | fin q => simp [scalarEq] at h1
      | str y => simp [scalarEq] at h1
    | fin p => cases b with
      | int y => simp [scalarEq] at h1
      | flt y => cases y with
        | nan => simp [scalarEq] at h1
        | fin q => cases c with
          | int z => simp [scalarEq] at h2
          | flt z => cases z with
            | nan => simp [scalarEq] at h2
            | fin r =>
              simp only [scalarEq, decide_eq_true_eq] at h1 h2 ⊢
              exact h1.trans h2
          | str z => simp [scalarEq] at h2
      | str y => simp [scalarEq] at h1
  | str x => cases b with
    | int y => simp [scalarEq] at h1
    | flt y => cases y <;> simp [scalarEq] at h1
    | str y => cases c with
      | int z => simp [scalarEq] at h2
      | flt z => cases z <;> simp [scalarEq] at h2
      | str z =>
        simp only [scalarEq, decide_eq_true_eq] at h1 h2 ⊢
        exact h1.trans h2

theorem primEq_symm (ne na : Bool) (vs : List Scalar) (val : List Bool) (i j : Nat) :
    primEq ne na vs val i j = primEq ne na vs val j i := by
  simp only [primEq]
  cases val.getD i true <;> cases val.getD j true <;> simp [scalarEq_symm]

theorem primEq_trans (ne na : Bool) (vs : List Scalar) (val : List Bool) (i j k : Nat) :
    primEq ne na vs val i j = true → primEq ne na vs val j k = true →
    primEq ne na vs val i k = true := by
  simp only [primEq]
  cases hvi : val.getD i true <;> cases hvj : val.getD j true <;>
    cases hvk : val.getD k true <;> intro h1 h2 <;> simp at h1 h2 ⊢
  · exact h1
  · exact scalarEq_trans na _ _ _ h1 h2

theorem colEq_symm_aux (ne na : Bool) (n : Nat) : ∀ (c : Column) (i j : Nat),
    colDepth c ≤ n → colEqF ne na n c i j = colEqF ne na n c j i := by
  induction n with
  | zero =>
    intro c i j h
    have := colDepth_pos c
    omega
  | succ n ih =>
    intro c i j h
    cases c with
    | prim t vs val => exact primEq_symm ne na vs val i j
    | list o v ch =>
      have hd : colDepth ch ≤ n := by
        have : colDepth (Column.list o v ch) = colDepth ch + 1 := rfl
        omega
      simp only [colEqF]
      cases hvi : v.getD i true <;> cases hvj : v.getD j true <;>
        simp only [Bool.and_self, Bool.and_false, Bool.false_and, Bool.and_true,
          Bool.true_and, Bool.not_false, Bool.not_true, Bool.false_eq_true, if_true,
          if_false, ite_false, ite_true, eq_self_iff_true]
      by_cases hn : o.getD (i + 1) 0 - o.getD i 0 = o.getD (j + 1) 0 - o.getD j 0
      · rw [hn]
        have h2 : (List.range (o.getD (j + 1) 0 - o.getD j 0)).all
              (fun k => colEqF ne na n ch (o.getD i 0 + k) (o.getD j 0 + k)) =
            (List.range (o.getD (j + 1) 0 - o.getD j 0)).all
              (fun k => colEqF ne na n ch (o.getD j 0 + k) (o.getD i 0 + k)) := by
          apply list_all_congr
          intro k _
          exact ih ch (o.getD i 0 + k) (o.getD j 0 + k) hd
        rw [h2]
      · rw [decide_eq_false hn, decide_eq_false (fun hx => hn hx.symm)]
        simp only [Bool.false_and]
    | struct v chs =>
      have hd : colsDepth chs ≤ n := by
        have : colDepth (Column.struct v chs) = colsDepth chs + 1 := rfl
        omega
      simp only [colEqF]
      cases hvi : v.getD i true <;> cases hvj : v.getD j true <;>
        simp only [Bool.and_self, Bool.and_false, Bool.false_and, Bool.and_true,
          Bool.true_and, Bool.not_false, Bool.not_true, Bool.false_eq_true, if_true,
          if_false, ite_false, ite_true, eq_self_iff_true]
      apply list_all_congr
      intro x hx
      exact ih x i j (le_trans (colDepth_le_colsDepth chs x hx) hd)

/-- The row comparator is symmetric on every column (`spec.md` §4.2, §8). -/
theorem colEq_symm (ne na : Bool) (c : Column) (i j : Nat) :
    colEq ne na c i j = colEq ne na c j i :=
  colEq_symm_aux ne na (colDepth c) c i j (le_refl _)

theorem colEq_trans_aux (ne na : Bool) (n : Nat) : ∀ (c : Column) (i j k : Nat),
    colDepth c ≤ n → colEqF ne na n c i j = true → colEqF ne na n c j k = true →
    colEqF ne na n c i k = true := by
  induction n with
  | zero =>
    intro c i j k h
    have := colDepth_pos c
    omega
  | succ n ih =>
    intro c i j k h
    cases c with
    | prim t vs val => exact primEq_trans ne na vs val i j k
    | list o v ch =>
      have hd : colDepth ch ≤ n := by
        have : colDepth (Column.list o v ch) = colDepth ch + 1 := rfl
        omega
      simp only [colEqF]
      cases hvi : v.getD i true <;> cases hvj : v.getD j true <;>
        cases hvk : v.getD k true <;> intro h1 h2 <;>
        simp only [Bool.and_self, Bool.and_false, Bool.false_and, Bool.and_true,
          Bool.true_and, Bool.not_false, Bool.not_true, Bool.false_eq_true, if_true,
          if_false, ite_false, ite_true, Bool.and_eq_true, Bool.not_eq_true] at h1 h2 ⊢
      · exact h1
      · obtain ⟨hn1, he1⟩ := h1
        obtain ⟨hn2, he2⟩ := h2
        rw [decide_eq_true_eq] at hn1 hn2
        constructor
        · rw [decide_eq_true_eq]
          omega
        · rw [List.all_eq_true] at he1 he2 ⊢
          intro r hr
          have hr' : r ∈ List.range (o.getD (j + 1) 0 - o.getD j 0) := by
            rw [List.mem_range] at hr ⊢
            omega
          exact ih ch (o.getD i 0 + r) (o.getD j 0 + r) (o.getD k 0 + r) hd
            (he1 r hr) (he2 r hr')
    | struct v chs =>
      have hd : colsDepth chs ≤ n := by
        have : colDepth (Column.struct v chs) = colsDepth chs + 1 := rfl
        omega
      simp only [colEqF]
      cases hvi : v.getD i true <;> cases hvj : v.getD j true <;>
        cases hvk : v.getD k true <;> intro h1 h2 <;>
        simp only [Bool.and_self, Bool.and_false, Bool.false_and, Bool.and_true,
          Bool.true_and, Bool.not_false, Bool.not_true, Bool.false_eq_true, if_true,
          if_false, ite_false, ite_true, Bool.and_eq_true, Bool.not_eq_true] at h1 h2 ⊢
      · exact h1
      · rw [List.all_eq_true] at h1 h2 ⊢
        intro x hx
        exact ih x i j k (le_trans (colDepth_le_colsDepth chs x hx) hd) (h1 x hx) (h2 x hx)

/-- The row comparator is transitive on every column (`spec.md` §4.2, §8). -/
theorem colEq_trans (ne na : Bool) (c : Column) (i j k : Nat)
    (h1 : colEq ne na c i j = true) (h2 : colEq ne na c j k = true) :
    colEq ne na c i k = true :=
  colEq_trans_aux ne na (colDepth c) c i j k (le_refl _) h1 h2

theorem scalarEq_self (na : Bool) (a : Scalar) (h : na = true ∨ isNaN a = false) :
    scalarEq na a a = true := by
  cases a with
  | int x => simp [scalarEq]
  | flt x => cases x with
    | nan =>
      rcases h with h | h
      · simpa [scalarEq] using h
      · simp [isNaN] at h
    | fin q => simp [scalarEq]
  | str s => simp [scalarEq]

/-- Two rows that are both null at the top level of a column compare as
`null_equality` dictates (`spec.md` §4.1, §4.2). -/
theorem colEq_null_null (ne na : Bool) (c : Column) (i j : Nat)
    (hi : topValid c i = false) (hj : topValid c j = false) :
    colEq ne na c i j = ne := by
  cases c with
  | prim t vs val =>
    rw [colEq_prim]
    simp only [topValid] at hi hj
    simp only [primEq, hi, hj]
    simp
  | list o v ch =>
    rw [colEq_listF]
    simp only [topValid] at hi hj
    simp only [hi, hj]
    simp
  | struct v chs =>
    rw [colEq_structF]
    simp only [topValid] at hi hj
    simp only [hi, hj]
    simp

/-- Under `null_equality == UNEQUAL` a top-level-null row compares
unequal to every row, including itself. -/
theorem colEq_null_unequal (na : Bool) (c : Column) (i j : Nat)
    (hi : topValid c i = false) : colEq false na c i j = false := by
  cases c with
  | prim t vs val =>
    rw [colEq_prim]
    simp only [topValid] at hi
    simp only [primEq, hi]
    simp
  | list o v ch =>
    rw [colEq_listF]
    simp only [topValid] at hi
    simp only [hi]
    simp
  | struct v chs =>
    rw [colEq_structF]
    simp only [topValid] at hi
    simp only [hi]
    simp

theorem colEq_refl_aux (ne na : Bool) (n : Nat) : ∀ (c : Column) (i : Nat),
    colDepth c ≤ n →
    (cleanF na n c i = true ∨ (ne = true ∧ na = true)) →
    colEqF ne na n c i i = true := by
  induction n with
  | zero =>
    intro c i h
    have := colDepth_pos c
    omega
  | succ n ih =>
    intro c i h hcl
    cases c with
    | prim t vs val =>
      show primEq ne na vs val i i = true
      simp only [primEq]
      cases hvi : val.getD i true <;>
        simp only [Bool.and_self, Bool.not_false, Bool.not_true, Bool.false_and,
          Bool.true_and, Bool.false_eq_true, if_true, if_false, ite_true, ite_false]
      · rcases hcl with hcl | hcl
        · simp only [cleanF, hvi, Bool.false_and] at hcl
          exact absurd hcl (by simp)
        · exact hcl.1
      · apply scalarEq_self
        rcases hcl with hcl | hcl
        · simp only [cleanF, hvi, Bool.true_and, Bool.or_eq_true, Bool.not_eq_true'] at hcl
          rcases hcl with hcl | hcl
          · exact Or.inl hcl
          · exact Or.inr hcl
        · exact Or.inl hcl.2
    | list o v ch =>
      have hd : colDepth ch ≤ n := by
        have : colDepth (Column.list o v ch) = colDepth ch + 1 := rfl
        omega
      simp only [colEqF]
      cases hvi : v.getD i true <;>
        simp only [Bool.and_self, Bool.not_false, Bool.not_true, Bool.false_and,
          Bool.true_and, Bool.false_eq_true, if_true, if_false, ite_true, ite_false]
      · rcases hcl with hcl | hcl
        · simp only [cleanF, hvi, Bool.false_and] at hcl
          exact absurd hcl (by simp)
        · exact hcl.1
      · rw [Bool.and_eq_true]
        constructor
        · simp
        · rw [List.all_eq_true]
          intro r hr
          rcases hcl with hcl | hcl
          · simp only [cleanF, hvi, Bool.true_and] at hcl
            rw [List.all_eq_true] at hcl
            exact ih ch _ hd (Or.inl (hcl r hr))
          · exact ih ch _ hd (Or.inr hcl)
    | struct v chs =>
      have hd : colsDepth chs ≤ n := by
        have : colDepth (Column.struct v chs) = colsDepth chs + 1 := rfl
        omega
      simp only [colEqF]
      cases hvi : v.getD i true <;>
        simp only [Bool.and_self, Bool.not_false, Bool.not_true, Bool.false_and,
          Bool.true_and, Bool.false_eq_true, if_true, if_false, ite_true, ite_false]
      · rcases hcl with hcl | hcl
        · simp only [cleanF, hvi, Bool.false_and] at hcl
          exact absurd hcl (by simp)
        · exact hcl.1
      · rw [List.all_eq_true]
        intro x hx
        have hdx := le_trans (colDepth_le_colsDepth chs x hx) hd
        rcases hcl with hcl | hcl
        · simp only [cleanF, hvi, Bool.true_and] at hcl
          rw [List.all_eq_true] at hcl
          exact ih x i hdx (Or.inl (hcl x hx))
        · exact ih x i hdx (Or.inr hcl)

/-- Under `null_equality == EQUAL` and `nan_equality == ALL_EQUAL` the
row comparator is reflexive at every row. -/
theorem colEq_refl_eq (c : Column) (i : Nat) : colEq true true c i i = true :=
  colEq_refl_aux true true (colDepth c) c i (le_refl _) (Or.inr ⟨rfl, rfl⟩)

/-- A clean row (no nulls, no NaN under NaN-UNEQUAL) is equal to itself
under every policy. -/
theorem colEq_refl_clean (ne na : Bool) (c : Column) (i : Nat)
    (h : cleanRow na c i = true) : colEq ne na c i i = true :=
  colEq_refl_aux ne na (colDepth c) c i (le_refl _) (Or.inl h)

theorem length_filter_range (n : Nat) (p : Nat → Bool) :
    ((List.range n).filter p).length = ((Finset.range n).filter (fun i => p i = true)).card := by
  induction n with
  | zero => rfl
  | succ n ih =>
    rw [List.range_succ, List.filter_append, List.length_append, Finset.range_succ,
      Finset.filter_insert]
    by_cases h : p n = true
    · rw [if_pos h, Finset.card_insert_of_not_mem (by simp)]
      simp [h, ih]
    · rw [if_neg h]
      simp [h, ih]

section ClassLemmas

variable {re : Nat → Nat → Bool}

theorem reflClose_self (i : Nat) : reflClose re i i = true := by
  simp [reflClose]

theorem reflClose_symm (hsym : ∀ i j, re i j = re j i) (i j : Nat) :
    reflClose re i j = reflClose re j i := by
  simp only [reflClose, hsym i j]
  by_cases h : i = j <;> simp [h, eq_comm]

theorem reflClose_trans (htr : ∀ i j k, re i j = true → re j k = true → re i k = true)
    (i j k : Nat) (h1 : reflClose re i j = true)
    (h2 : reflClose re j k = true) : reflClose re i k = true := by
  simp only [reflClose, Bool.or_eq_true, decide_eq_true_eq] at h1 h2 ⊢
  rcases h1 with h1 | rfl
  · rcases h2 with h2 | rfl
    · exact Or.inl (htr i j k h1 h2)
    · exact Or.inl h1
  · exact h2

theorem mem_classOf {n i j : Nat} :
    j ∈ classOf n re i ↔ j < n ∧ reflClose re i j = true := by
  simp [classOf, Finset.mem_filter, Finset.mem_range, and_comm]

theorem self_mem_classOf {n i : Nat} (h : i < n) : i ∈ classOf n re i :=
  mem_classOf.mpr ⟨h, reflClose_self i⟩

theorem classOf_eq (hsym : ∀ i j, re i j = re j i)
    (htr : ∀ i j k, re i j = true → re j k = true → re i k = true)
    {n i j : Nat} (h : reflClose re i j = true) :
    classOf n re i = classOf n re j := by
  ext k
  rw [mem_classOf, mem_classOf]
  constructor
  · rintro ⟨hk, hik⟩
    refine ⟨hk, ?_⟩
    rw [reflClose_symm hsym] at h
    exact reflClose_trans htr j i k h hik
  · rintro ⟨hk, hjk⟩
    exact ⟨hk, reflClose_trans htr i j k h hjk⟩

theorem keepFirstOk_iff (hsym : ∀ i j, re i j = re j i) {n i : Nat} (hi : i < n) :
    keepFirstOk re i = true ↔ ∀ j ∈ classOf n re i, i ≤ j := by
  simp only [keepFirstOk, List.all_eq_true, List.mem_range, Bool.not_eq_true']
  constructor
  · intro h j hj
    rw [mem_classOf] at hj
    by_contra hlt
    push_neg at hlt
    have hji : re j i = false := h j hlt
    have : reflClose re i j = true := hj.2
    simp only [reflClose, Bool.or_eq_true, decide_eq_true_eq] at this
    rcases this with hij | rfl
    · rw [hsym i j] at hij
      rw [hij] at hji
      exact absurd hji (by simp)
    · omega
  · intro h j hj
    by_contra ht
    rw [Bool.not_eq_false] at ht
    have hmem : j ∈ classOf n re i := by
      rw [mem_classOf]
      refine ⟨by omega, ?_⟩
      simp only [reflClose, Bool.or_eq_true]
      rw [hsym j i] at ht
      exact Or.inl ht
    have := h j hmem
    omega

theorem keepLastOk_iff {n i : Nat} (hi : i < n) :
    keepLastOk re n i = true ↔ ∀ j ∈ classOf n re i, j ≤ i := by
  simp only [keepLastOk, List.all_eq_true, List.mem_range, Bool.or_eq_true,
    decide_eq_true_eq, Bool.not_eq_true']
  constructor
  · intro h j hj
    rw [mem_classOf] at hj
    rcases h j hj.1 with hle | hf
    · exact hle
    · have : reflClose re i j = true := hj.2
      simp only [reflClose, Bool.or_eq_true, decide_eq_true_eq] at this
      rcases this with hij | rfl
      · rw [hij] at hf
        exact absurd hf (by simp)
      · exact le_refl _
  · intro h j hjn
    by_cases hle : j ≤ i
    · exact Or.inl hle
    · right
      by_contra ht
      rw [Bool.not_eq_false] at ht
      have hmem : j ∈ classOf n re i := by
        rw [mem_classOf]
        exact ⟨hjn, by simp [reflClose, ht]⟩
      have := h j hmem
      omega

theorem keepNoneOk_iff {n i : Nat} (hi : i < n) :
    keepNoneOk re n i = true ↔ classOf n re i = {i} := by
  simp only [keepNoneOk, List.all_eq_true, List.mem_range, Bool.or_eq_true,
    decide_eq_true_eq, Bool.not_eq_true']
  constructor
  · intro h
    ext k
    rw [mem_classOf, Finset.mem_singleton]
    constructor
    · rintro ⟨hk, hik⟩
      simp only [reflClose, Bool.or_eq_true, decide_eq_true_eq] at hik
      rcases hik with hik | rfl
      · rcases h k hk with rfl | hf
        · rfl
        · rw [hik] at hf
          exact absurd hf (by simp)
      · rfl
    · rintro rfl
      exact ⟨hi, reflClose_self _⟩
  · intro h j hjn
    by_cases hji : j = i
    · exact Or.inl hji
    · right
      by_contra ht
      rw [Bool.not_eq_false] at ht
      have hmem : j ∈ classOf n re i := by
        rw [mem_classOf]
        exact ⟨hjn, by simp [reflClose, ht]⟩
      rw [h, Finset.mem_singleton] at hmem
      exact hji hmem

theorem classOf_nonempty {n i : Nat} (hi : i < n) : (classOf n re i).Nonempty :=
  ⟨i, self_mem_classOf hi⟩

theorem count_first (hsym : ∀ i j, re i j = re j i)
    (htr : ∀ i j k, re i j = true → re j k = true → re i k = true) :
    ∀ n, ((List.range n).filter (keepFirstOk re)).length = classCount n re := by
  intro n
  rw [length_filter_range]
  apply Finset.card_bij (fun a _ => classOf n re a)
  · intro a ha
    rw [Finset.mem_filter, Finset.mem_range] at ha
    exact Finset.mem_image_of_mem _ (Finset.mem_range.mpr ha.1)
  · intro a ha b hb hab
    rw [Finset.mem_filter, Finset.mem_range] at ha hb
    have hmina := (keepFirstOk_iff hsym ha.1).mp ha.2
    have hminb := (keepFirstOk_iff hsym hb.1).mp hb.2
    have hba : b ∈ classOf n re a := by
      rw [hab]
      exact self_mem_classOf hb.1
    have hab' : a ∈ classOf n re b := by
      rw [← hab]
      exact self_mem_classOf ha.1
    have h1 := hmina b hba
    have h2 := hminb a hab'
    omega
  · intro s hs
    rw [allClasses, Finset.mem_image] at hs
    obtain ⟨a, ha, rfl⟩ := hs
    rw [Finset.mem_range] at ha
    have hne : (classOf n re a).Nonempty := classOf_nonempty ha
    set m := (classOf n re a).min' hne with hm
    have hmmem : m ∈ classOf n re a := Finset.min'_mem _ _
    rw [mem_classOf] at hmmem
    have hceq : classOf n re a = classOf n re m := classOf_eq hsym htr hmmem.2
    refine ⟨m, ?_, hceq.symm⟩
    rw [Finset.mem_filter, Finset.mem_range]
    refine ⟨hmmem.1, ?_⟩
    rw [keepFirstOk_iff hsym hmmem.1]
    intro j hj
    rw [← hceq] at hj
    exact Finset.min'_le _ _ hj

theorem count_last (hsym : ∀ i j, re i j = re j i)
    (htr : ∀ i j k, re i j = true → re j k = true → re i k = true) :
    ∀ n, ((List.range n).filter (keepLastOk re n)).length = classCount n re := by
  intro n
  rw [length_filter_range]
  apply Finset.card_bij (fun a _ => classOf n re a)
  · intro a ha
    rw [Finset.mem_filter, Finset.mem_range] at ha
    exact Finset.mem_image_of_mem _ (Finset.mem_range.mpr ha.1)
  · intro a ha b hb hab
    rw [Finset.mem_filter, Finset.mem_range] at ha hb
    have hmaxa := (keepLastOk_iff ha.1).mp ha.2
    have hmaxb := (keepLastOk_iff hb.1).mp hb.2
    have hba : b ∈ classOf n re a := by
      rw [hab]
      exact self_mem_classOf hb.1
    have hab' : a ∈ classOf n re b := by
      rw [← hab]
      exact self_mem_classOf ha.1
    have h1 := hmaxa b hba
    have h2 := hmaxb a hab'
    omega
  · intro s hs
    rw [allClasses, Finset.mem_image] at hs
    obtain ⟨a, ha, rfl⟩ := hs
    rw [Finset.mem_range] at ha
    have hne : (classOf n re a).Nonempty := classOf_nonempty ha
    set m := (classOf n re a).max' hne with hm
    have hmmem : m ∈ classOf n re a := Finset.max'_mem _ _
    rw [mem_classOf] at hmmem
    have hceq : classOf n re a = classOf n re m := classOf_eq hsym htr hmmem.2
    refine ⟨m, ?_, hceq.symm⟩
    rw [Finset.mem_filter, Finset.mem_range]
    refine ⟨hmmem.1, ?_⟩
    rw [keepLastOk_iff hmmem.1]
    intro j hj
    rw [← hceq] at hj
    exact Finset.le_max' _ _ hj

theorem count_none :
    ∀ n, ((List.range n).filter (keepNoneOk re n)).length = singletonCount n re := by
  intro n
  rw [length_filter_range]
  apply Finset.card_bij (fun a _ => classOf n re a)
  · intro a ha
    rw [Finset.mem_filter, Finset.mem_range] at ha
    rw [Finset.mem_filter]
    constructor
    · exact Finset.mem_image_of_mem _ (Finset.mem_range.mpr ha.1)
    · rw [(keepNoneOk_iff ha.1).mp ha.2]
      simp
  · intro a ha b hb hab
    rw [Finset.mem_filter, Finset.mem_range] at ha hb
    rw [(keepNoneOk_iff ha.1).mp ha.2,
      (keepNoneOk_iff hb.1).mp hb.2] at hab
    exact Finset.singleton_injective hab
  · intro s hs
    rw [Finset.mem_filter] at hs
    obtain ⟨hs1, hs2⟩ := hs
    rw [allClasses, Finset.mem_image] at hs1
    obtain ⟨a, ha, rfl⟩ := hs1
    rw [Finset.mem_range] at ha
    obtain ⟨m, hmeq⟩ := Finset.card_eq_one.mp hs2
    have hmem : a ∈ classOf n re a := self_mem_classOf ha
    rw [hmeq, Finset.mem_singleton] at hmem
    subst hmem
    refine ⟨a, ?_, rfl⟩
    rw [Finset.mem_filter, Finset.mem_range]
    exact ⟨ha, (keepNoneOk_iff ha).mpr hmeq⟩

end ClassLemmas

theorem rowEq_symm (cols : List Column) (keys : List Nat) (ne na : Bool) (i j : Nat) :
    rowEq cols keys ne na i j = rowEq cols keys ne na j i := by
  apply list_all_congr
  intro k _
  exact colEq_symm ne na (cols.getD k default) i j

theorem rowEq_trans (cols : List Column) (keys : List Nat) (ne na : Bool) (i j k : Nat)
    (h1 : rowEq cols keys ne na i j = true) (h2 : rowEq cols keys ne na j k = true) :
    rowEq cols keys ne na i k = true := by
  rw [rowEq, List.all_eq_true] at h1 h2 ⊢
  intro x hx
  exact colEq_trans ne na (cols.getD x default) i j k (h1 x hx) (h2 x hx)

theorem rowEq_refl_eq (cols : List Column) (keys : List Nat) (i : Nat) :
    rowEq cols keys true true i i = true := by
  rw [rowEq, List.all_eq_true]
  intro x _
  exact colEq_refl_eq (cols.getD x default) i

theorem rowEq_refl_clean (cols : List Column) (keys : List Nat) (ne na : Bool) (i : Nat)
    (h : cleanRowKeys cols keys na i = true) : rowEq cols keys ne na i i = true := by
  rw [cleanRowKeys, List.all_eq_true] at h
  rw [rowEq, List.all_eq_true]
  intro x hx
  exact colEq_refl_clean ne na (cols.getD x default) i (h x hx)

/-- C8 (counterexample): the claim asserts `row_equal(i,i) = true` for
every row under both null-equality settings; under
`null_equality == UNEQUAL` a table whose key value at row 0 is null has
`row_equal(0,0) = false`, refuting reflexivity as claimed. -/
theorem rowEq_unequal_null_not_reflexive :
    rowEq [Column.prim .tInt [.int 0] [false]] [0] false true 0 0 = false := rfl

/-- C8 (amended): `row_equal` is symmetric and transitive under both
null-equality settings; it is reflexive at every row when
`null_equality == EQUAL` and `nan_equality == ALL_EQUAL`, and at every
row whose key values contain no null (and no NaN when
`nan_equality == UNEQUAL`) under any settings.  A null-keyed row under
UNEQUAL compares unequal to itself (see the counterexample). -/
theorem rowEq_equivalence_props (cols : List Column) (keys : List Nat) (ne na : Bool)
    (i j k : Nat) :
    (rowEq cols keys ne na i j = rowEq cols keys ne na j i)
    ∧ (rowEq cols keys ne na i j = true → rowEq cols keys ne na j k = true →
        rowEq cols keys ne na i k = true)
    ∧ (ne = true → na = true → rowEq cols keys true true i i = true)
    ∧ (cleanRowKeys cols keys na i = true → rowEq cols keys ne na i i = true) :=
  ⟨rowEq_symm cols keys ne na i j,
   rowEq_trans cols keys ne na i j k,
   fun _ _ => rowEq_refl_eq cols keys i,
   rowEq_refl_clean cols keys ne na i⟩

/-- C8 witness: the amended theorem applied to a concrete three-row
integer table, discharging the transitivity and cleanliness premises. -/
theorem rowEq_equivalence_props_witness :
    rowEq [Column.prim .tInt [.int 7, .int 7, .int 7] []] [0] false false 0 2 = true
    ∧ rowEq [Column.prim .tInt [.int 7, .int 7, .int 7] []] [0] false false 1 1 = true :=
  ⟨(rowEq_equivalence_props [Column.prim .tInt [.int 7, .int 7, .int 7] []] [0]
      false false 0 1 2).2.1 (by decide) (by decide),
   (rowEq_equivalence_props [Column.prim .tInt [.int 7, .int 7, .int 7] []] [0]
      false false 1 0 0).2.2.2 (by decide)⟩

/-- C3: the keep policy selects per equivalence class — FIRST the
minimum original row index of each class, LAST the maximum, NONE the
sole index of singleton classes, ANY exactly one representative
(modelled as the first occurrence); consequently the output row count
equals the number of classes under FIRST/LAST/ANY and the number of
size-1 classes under NONE. -/
theorem distinct_keep_policy_selects (cols : List Column) (keys : List Nat)
    (ne na : Bool) (off n : Nat) :
    (∀ i, i ∈ selectIndices .first n (fun a b => rowEq cols keys ne na (off + a) (off + b)) ↔
      i < n ∧ ∀ j ∈ classOf n (fun a b => rowEq cols keys ne na (off + a) (off + b)) i, i ≤ j)
    ∧ (∀ i, i ∈ selectIndices .last n (fun a b => rowEq cols keys ne na (off + a) (off + b)) ↔
      i < n ∧ ∀ j ∈ classOf n (fun a b => rowEq cols keys ne na (off + a) (off + b)) i, j ≤ i)
    ∧ (∀ i, i ∈ selectIndices .none n (fun a b => rowEq cols keys ne na (off + a) (off + b)) ↔
      i < n ∧ classOf n (fun a b => rowEq cols keys ne na (off + a) (off + b)) i = {i})
    ∧ selectIndices .any n (fun a b => rowEq cols keys ne na (off + a) (off + b)) =
      selectIndices .first n (fun a b => rowEq cols keys ne na (off + a) (off + b))
    ∧ (selectIndices .first n (fun a b => rowEq cols keys ne na (off + a) (off + b))).length =
      classCount n (fun a b => rowEq cols keys ne na (off + a) (off + b))
    ∧ (selectIndices .last n (fun a b => rowEq cols keys ne na (off + a) (off + b))).length =
      classCount n (fun a b => rowEq cols keys ne na (off + a) (off + b))
    ∧ (selectIndices .none n (fun a b => rowEq cols keys ne na (off + a) (off + b))).length =
      singletonCount n (fun a b => rowEq cols keys ne na (off + a) (off + b))
    ∧ (∀ keep, n ≠ 0 → cols ≠ [] → keys ≠ [] → (∀ k ∈ keys, k < cols.length) →
        distinct cols off n keys keep ne na = .ok ⟨cols.map schema,
          (selectIndices keep n (fun a b => rowEq cols keys ne na (off + a) (off + b))).map
            (fun i => cols.map (fun c => rowVal c (off + i)))⟩) := by
  have hsym : ∀ a b, (fun a b => rowEq cols keys ne na (off + a) (off + b)) a b =
      (fun a b => rowEq cols keys ne na (off + a) (off + b)) b a := by
    intro a b
    exact rowEq_symm cols keys ne na (off + a) (off + b)
  have htr : ∀ a b c, (fun a b => rowEq cols keys ne na (off + a) (off + b)) a b = true →
      (fun a b => rowEq cols keys ne na (off + a) (off + b)) b c = true →
      (fun a b => rowEq cols keys ne na (off + a) (off + b)) a c = true := by
    intro a b c h1 h2
    exact rowEq_trans cols keys ne na (off + a) (off + b) (off + c) h1 h2
  refine ⟨?_, ?_, ?_, rfl, count_first hsym htr n, count_last hsym htr n, count_none n, ?_⟩
  · intro i
    rw [selectIndices, List.mem_filter, List.mem_range]
    constructor
    · rintro ⟨hi, hok⟩
      exact ⟨hi, (keepFirstOk_iff hsym hi).mp hok⟩
    · rintro ⟨hi, hmin⟩
      exact ⟨hi, (keepFirstOk_iff hsym hi).mpr hmin⟩
  · intro i
    rw [selectIndices, List.mem_filter, List.mem_range]
    constructor
    · rintro ⟨hi, hok⟩
      exact ⟨hi, (keepLastOk_iff hi).mp hok⟩
    · rintro ⟨hi, hmax⟩
      exact ⟨hi, (keepLastOk_iff hi).mpr hmax⟩
  · intro i
    rw [selectIndices, List.mem_filter, List.mem_range]
    constructor
    · rintro ⟨hi, hok⟩
      exact ⟨hi, (keepNoneOk_iff hi).mp hok⟩
    · rintro ⟨hi, hsing⟩
      exact ⟨hi, (keepNoneOk_iff hi).mpr hsing⟩
  · intro keep hn hc hk hv
    rw [distinct]
    have h1 : (n == 0 || cols.isEmpty || keys.isEmpty) = false := by
      rw [Bool.or_eq_false_iff, Bool.or_eq_false_iff]
      refine ⟨⟨?_, ?_⟩, ?_⟩
      · simpa using hn
      · simpa [List.isEmpty_iff] using hc
      · simpa [List.isEmpty_iff] using hk
    rw [h1]
    have h2 : (keys.any fun k => decide (cols.length ≤ k)) = false := by
      rw [List.any_eq_false]
      intro k hkk
      simpa using Nat.not_le.mpr (hv k hkk)
    rw [h2]
    simp only [Bool.false_eq_true, if_false, ite_false]

theorem rowEq_single (ne na : Bool) (c : Column) (i j : Nat) :
    rowEq [c] [0] ne na i j = colEq ne na c i j := by
  simp [rowEq]

/-- A row equal to no row (under the raw relation) forms a singleton
class and survives every keep policy. -/
theorem singleton_class_survives {re : Nat → Nat → Bool}
    (hsym : ∀ a b, re a b = re b a) {n i : Nat} (hi : i < n)
    (hall : ∀ k, re i k = false) :
    classOf n re i = {i} ∧ ∀ keep, i ∈ selectIndices keep n re := by
  constructor
  · ext k
    rw [mem_classOf, Finset.mem_singleton]
    constructor
    · rintro ⟨hk, hik⟩
      simp only [reflClose, hall k, Bool.false_or, decide_eq_true_eq] at hik
      exact hik.symm
    · rintro rfl
      exact ⟨hi, reflClose_self _⟩
  · intro keep
    have hfirst : i ∈ (List.range n).filter (keepFirstOk re) := by
      rw [List.mem_filter, List.mem_range]
      refine ⟨hi, ?_⟩
      rw [keepFirstOk, List.all_eq_true]
      intro j _
      rw [hsym j i, hall j]
      rfl
    cases keep with
    | any => exact hfirst
    | first => exact hfirst
    | last =>
      rw [selectIndices, List.mem_filter, List.mem_range]
      refine ⟨hi, ?_⟩
      rw [keepLastOk, List.all_eq_true]
      intro j _
      rw [hall j]
      simp
    | none =>
      rw [selectIndices, List.mem_filter, List.mem_range]
      refine ⟨hi, ?_⟩
      rw [keepNoneOk, List.all_eq_true]
      intro j _
      rw [hall j]
      simp

/-- C1: rows whose key values are both null at the same position are
treated as equal (merged into one equivalence class) when
`null_equality == EQUAL` and as unequal (each retained as its own
singleton class by every keep policy) when `null_equality == UNEQUAL`;
the statement quantifies over every column kind, so it covers null LIST
and null STRUCT values as well as primitives. -/
theorem distinct_null_equality (ne na : Bool) (c : Column) (n i j : Nat)
    (hi : topValid c i = false) (hj : topValid c j = false)
    (hin : i < n) (hjn : j < n) :
    colEq ne na c i j = ne
    ∧ (ne = true → classOf n (fun a b => rowEq [c] [0] true na a b) i =
        classOf n (fun a b => rowEq [c] [0] true na a b) j)
    ∧ (ne = false → classOf n (fun a b => rowEq [c] [0] false na a b) i = {i}
        ∧ ∀ keep, i ∈ selectIndices keep n (fun a b => rowEq [c] [0] false na a b)) := by
  refine ⟨colEq_null_null ne na c i j hi hj, ?_, ?_⟩
  · rintro rfl
    have hsym : ∀ a b, (fun a b => rowEq [c] [0] true na a b) a b =
        (fun a b => rowEq [c] [0] true na a b) b a :=
      fun a b => rowEq_symm [c] [0] true na a b
    have htr : ∀ a b d, (fun a b => rowEq [c] [0] true na a b) a b = true →
        (fun a b => rowEq [c] [0] true na a b) b d = true →
        (fun a b => rowEq [c] [0] true na a b) a d = true :=
      fun a b d => rowEq_trans [c] [0] true na a b d
    apply classOf_eq hsym htr
    have : rowEq [c] [0] true na i j = true := by
      rw [rowEq_single]
      exact colEq_null_null true na c i j hi hj
    simp [reflClose, this]
  · rintro rfl
    have hsym : ∀ a b, (fun a b => rowEq [c] [0] false na a b) a b =
        (fun a b => rowEq [c] [0] false na a b) b a :=
      fun a b => rowEq_symm [c] [0] false na a b
    have hall : ∀ k, (fun a b => rowEq [c] [0] false na a b) i k = false := by
      intro k
      show rowEq [c] [0] false na i k = false
      rw [rowEq_single]
      exact colEq_null_unequal na c i k hi
    exact singleton_class_survives hsym hin hall

/-- C1 witness: for the NullableLists fixture, the two NULL list rows (7
and 10) compare equal under EQUAL, and under UNEQUAL row 7 forms a
singleton class selected by KEEP_ANY. -/
theorem distinct_null_equality_witness :
    colEq true false nullableListsCol 7 10 = true
    ∧ classOf 11 (fun a b => rowEq [nullableListsCol] [0] false false a b) 7 = {7}
    ∧ 7 ∈ selectIndices .any 11 (fun a b => rowEq [nullableListsCol] [0] false false a b) :=
  ⟨(distinct_null_equality true false nullableListsCol 11 7 10 (by decide) (by decide)
      (by decide) (by decide)).1,
   ((distinct_null_equality false false nullableListsCol 11 7 10 (by decide) (by decide)
      (by decide) (by decide)).2.2 rfl).1,
   ((distinct_null_equality false false nullableListsCol 11 7 10 (by decide) (by decide)
      (by decide) (by decide)).2.2 rfl).2 .any⟩

theorem scalarEq_nan_unequal (x : Scalar) : scalarEq false (.flt .nan) x = false := by
  cases x with
  | int v => rfl
  | flt v => cases v <;> rfl
  | str s => rfl

/-- C2: two valid NaN key values compare equal exactly when
`nan_equality == ALL_EQUAL` (all NaN rows merge into one class); under
UNEQUAL every NaN row is its own singleton class retained by every keep
policy; exactly one NaN compares unequal; non-NaN values use standard
numeric equality. -/
theorem distinct_nan_equality (ne na : Bool) (t : PTag) (vs : List Scalar)
    (val : List Bool) (n i j : Nat)
    (hvi : val.getD i true = true) (hvj : val.getD j true = true)
    (hni : vs.getD i default = .flt .nan) (hnj : vs.getD j default = .flt .nan)
    (hin : i < n) (hjn : j < n) :
    colEq ne na (.prim t vs val) i j = na
    ∧ (na = true → classOf n (fun a b => rowEq [Column.prim t vs val] [0] ne true a b) i =
        classOf n (fun a b => rowEq [Column.prim t vs val] [0] ne true a b) j)
    ∧ (na = false → classOf n (fun a b => rowEq [Column.prim t vs val] [0] ne false a b) i = {i}
        ∧ ∀ keep, i ∈ selectIndices keep n (fun a b => rowEq [Column.prim t vs val] [0] ne false a b))
    ∧ (∀ a b : Rat, scalarEq na (.flt (.fin a)) (.flt (.fin b)) = decide (a = b))
    ∧ (∀ a : Rat, scalarEq na (.flt .nan) (.flt (.fin a)) = false
        ∧ scalarEq na (.flt (.fin a)) (.flt .nan) = false) := by
  have hbase : colEq ne na (.prim t vs val) i j = na := by
    rw [colEq_prim]
    simp only [primEq, hvi, hvj, hni, hnj]
    simp [scalarEq]
  refine ⟨hbase, ?_, ?_, fun a b => rfl, fun a => ⟨rfl, rfl⟩⟩
  · rintro rfl
    have hsym : ∀ a b, (fun a b => rowEq [Column.prim t vs val] [0] ne true a b) a b =
        (fun a b => rowEq [Column.prim t vs val] [0] ne true a b) b a :=
      fun a b => rowEq_symm [Column.prim t vs val] [0] ne true a b
    have htr : ∀ a b d, (fun a b => rowEq [Column.prim t vs val] [0] ne true a b) a b = true →
        (fun a b => rowEq [Column.prim t vs val] [0] ne true a b) b d = true →
        (fun a b => rowEq [Column.prim t vs val] [0] ne true a b) a d = true :=
      fun a b d => rowEq_trans [Column.prim t vs val] [0] ne true a b d
    apply classOf_eq hsym htr
    have : rowEq [Column.prim t vs val] [0] ne true i j = true := by
      rw [rowEq_single]
      exact hbase
    simp [reflClose, this]
  · rintro rfl
    have hsym : ∀ a b, (fun a b => rowEq [Column.prim t vs val] [0] ne false a b) a b =
        (fun a b => rowEq [Column.prim t vs val] [0] ne false a b) b a :=
      fun a b => rowEq_symm [Column.prim t vs val] [0] ne false a b
    have hall : ∀ k, (fun a b => rowEq [Column.prim t vs val] [0] ne false a b) i k = false := by
      intro k
      show rowEq [Column.prim t vs val] [0] ne false i k = false
      rw [rowEq_single, colEq_prim]
      simp only [primEq, hvi, hni]
      cases hvk : val.getD k true <;>
        simp only [Bool.and_self, Bool.and_false, Bool.false_and, Bool.and_true,
          Bool.true_and, Bool.not_false, Bool.not_true, Bool.false_eq_true, if_true,
          if_false, ite_false, ite_true]
      exact scalarEq_nan_unequal _
    exact singleton_class_survives hsym hin hall

/-- C2 witness: for the NaN fixture, the two NaN rows (1 and 2) compare
equal under ALL_EQUAL; under UNEQUAL row 1 is a singleton class and is
retained by KEEP_NONE. -/
theorem distinct_nan_equality_witness :
    colEq true true nanKeysCol 1 2 = true
    ∧ classOf 7 (fun a b => rowEq [nanKeysCol] [0] true false a b) 1 = {1}
    ∧ 1 ∈ selectIndices .none 7 (fun a b => rowEq [nanKeysCol] [0] true false a b) :=
  ⟨(distinct_nan_equality true true .tFlt
      [.flt (.fin 20), .flt .nan, .flt .nan, .flt (.fin 19), .flt (.fin 21),
        .flt (.fin 19), .flt (.fin 22)] [] 7 1 2 (by decide) (by decide) (by decide)
      (by decide) (by decide) (by decide)).1,
   ((distinct_nan_equality true false .tFlt
      [.flt (.fin 20), .flt .nan, .flt .nan, .flt (.fin 19), .flt (.fin 21),
        .flt (.fin 19), .flt (.fin 22)] [] 7 1 2 (by decide) (by decide) (by decide)
      (by decide) (by decide) (by decide)).2.2.1 rfl).1,
   ((distinct_nan_equality true false .tFlt
      [.flt (.fin 20), .flt .nan, .flt .nan, .flt (.fin 19), .flt (.fin 21),
        .flt (.fin 19), .flt (.fin 22)] [] 7 1 2 (by decide) (by decide) (by decide)
      (by decide) (by decide) (by decide)).2.2.1 rfl).2 .none⟩

/-- C5: two valid LIST values are equal iff they have the same length
and every element pair at corresponding positions is recursively equal
(element order matters); two empty lists are always equal; on the
BasicLists fixture of 12 list rows KEEP_ANY yields exactly 7 classes,
with `[1,2] ≠ [2,1]` and `[2] ≠ [2,2]`. -/
theorem distinct_list_equality (ne na : Bool) (o : List Nat) (v : List Bool)
    (ch : Column) (i j : Nat)
    (hvi : v.getD i true = true) (hvj : v.getD j true = true) :
    (colEq ne na (.list o v ch) i j = true ↔
      (o.getD (i + 1) 0 - o.getD i 0 = o.getD (j + 1) 0 - o.getD j 0 ∧
       ∀ k < o.getD (i + 1) 0 - o.getD i 0,
         colEq ne na ch (o.getD i 0 + k) (o.getD j 0 + k) = true))
    ∧ (o.getD (i + 1) 0 - o.getD i 0 = 0 → o.getD (j + 1) 0 - o.getD j 0 = 0 →
        colEq ne na (.list o v ch) i j = true)
    ∧ (selectIndices .any 12 (fun a b => rowEq [basicListsCol] [0] true false a b)).length = 7
    ∧ classCount 12 (fun a b => rowEq [basicListsCol] [0] true false a b) = 7
    ∧ colEq true false basicListsCol 5 9 = false
    ∧ colEq true false basicListsCol 7 6 = false := by
  have hmain : colEq ne na (.list o v ch) i j = true ↔
      (o.getD (i + 1) 0 - o.getD i 0 = o.getD (j + 1) 0 - o.getD j 0 ∧
       ∀ k < o.getD (i + 1) 0 - o.getD i 0,
         colEq ne na ch (o.getD i 0 + k) (o.getD j 0 + k) = true) := by
    rw [colEq_listF]
    simp only [hvi, hvj, Bool.and_self, if_true, ite_true, Bool.and_eq_true,
      decide_eq_true_eq, List.all_eq_true, List.mem_range]
  have hcnt : classCount 12 (fun a b => rowEq [basicListsCol] [0] true false a b) = 7 := by
    have hsym : ∀ a b, (fun a b => rowEq [basicListsCol] [0] true false a b) a b =
        (fun a b => rowEq [basicListsCol] [0] true false a b) b a :=
      fun a b => rowEq_symm [basicListsCol] [0] true false a b
    have htr : ∀ a b d, (fun a b => rowEq [basicListsCol] [0] true false a b) a b = true →
        (fun a b => rowEq [basicListsCol] [0] true false a b) b d = true →
        (fun a b => rowEq [basicListsCol] [0] true false a b) a d = true :=
      fun a b d => rowEq_trans [basicListsCol] [0] true false a b d
    rw [← count_first hsym htr 12]
    decide
  refine ⟨hmain, ?_, by decide, hcnt, by decide, by decide⟩
  intro h0i h0j
  rw [hmain]
  refine ⟨by omega, ?_⟩
  intro k hk
  omega

/-- C5 witness: the list-equality characterization applied to the
BasicLists fixture at the two empty-list rows 0 and 1. -/
theorem distinct_list_equality_witness :
    colEq true false basicListsCol 0 1 = true :=
  ((distinct_list_equality true false [0, 0, 0, 1, 3, 4, 6, 8, 9, 10, 12, 14, 16] []
      (.prim .tInt [.int 1, .int 1, .int 1, .int 1, .int 1, .int 2, .int 2, .int 2,
        .int 2, .int 2, .int 2, .int 1, .int 2, .int 2, .int 2, .int 2] [])
      0 1 (by decide) (by decide)).2.1 (by decide) (by decide))

/-- C6: with an empty key-column sequence, `distinct` returns a table
with the same column schema and zero rows, for every keep policy and
equality settings (`spec.md` §4.4, §8 scenario 4). -/
theorem distinct_empty_keys (cols : List Column) (off n : Nat) (keep : Keep)
    (ne na : Bool) (h : cols ≠ []) :
    distinct cols off n [] keep ne na = .ok ⟨cols.map schema, []⟩
    ∧ (cols.map schema).length = cols.length := by
  constructor
  · rw [distinct]
    simp
  · simp

/-- C6 witness: the empty-keys theorem applied to the EmptyKeys fixture. -/
theorem distinct_empty_keys_witness :
    distinct [emptyKeysCol] 0 6 [] .any true false = .ok ⟨[.sPrim .tInt], []⟩ :=
  (distinct_empty_keys [emptyKeysCol] 0 6 .any true false (List.cons_ne_nil _ _)).1

/-- C7 (counterexample): the claim says every call with an out-of-range
key-column index fails fast; the `NoColumnInputTable` test calls
`distinct` on a zero-column table with key indices `{1, 2}` (both out of
range) and the call succeeds, returning the empty table unchanged. -/
theorem distinct_invalid_key_zero_columns :
    distinct ([] : List Column) 0 0 [1, 2] .any true false = .ok ⟨[], []⟩ := rfl

/-- C7 (amended): an out-of-range key-column index makes the call fail
fast with no output, unless the empty-input identity short-circuit
applies (zero rows, zero columns, or an empty key list), in which case
an empty-like table is returned without validating the indices. -/
theorem distinct_invalid_key (cols : List Column) (off n : Nat) (keys : List Nat)
    (keep : Keep) (ne na : Bool) (hn : n ≠ 0) (hc : cols ≠ []) (hk : keys ≠ [])
    (hbad : ∃ k ∈ keys, cols.length ≤ k) :
    distinct cols off n keys keep ne na = .error () := by
  rw [distinct]
  have h1 : (n == 0 || cols.isEmpty || keys.isEmpty) = false := by
    rw [Bool.or_eq_false_iff, Bool.or_eq_false_iff]
    refine ⟨⟨?_, ?_⟩, ?_⟩
    · simpa using hn
    · simpa [List.isEmpty_iff] using hc
    · simpa [List.isEmpty_iff] using hk
  rw [h1]
  have h2 : (keys.any fun k => decide (cols.length ≤ k)) = true := by
    rw [List.any_eq_true]
    obtain ⟨k, hkk, hklt⟩ := hbad
    exact ⟨k, hkk, by simpa using hklt⟩
  rw [h2]
  simp

/-- C7 witness: the amended theorem applied to a one-column, six-row
table with key indices `{1, 2}` out of range. -/
theorem distinct_invalid_key_witness :
    distinct [emptyKeysCol] 0 6 [1, 2] .any true false = .error () :=
  distinct_invalid_key [emptyKeysCol] 0 6 [1, 2] .any true false (by decide)
    (List.cons_ne_nil _ _) (by decide) (by decide)

/-- C10: constructing `bool8` from any source value normalizes the
stored representation to exactly 0 or 1 (the stored byte equals
`static_cast<uint8_t>(static_cast<bool>(v))`); consequently any two
`bool8` values built from nonzero inputs compare equal and neither is
less nor greater than the other (e.g. `bool8{42} == bool8{43}`). -/
theorem bool8_normalization (v w w' : Int) (x : FloatVal) (b : Bool)
    (hw : w ≠ 0) (hw' : w' ≠ 0) :
    ((Bool8.ofInt v).value = if v = 0 then 0 else 1)
    ∧ ((Bool8.ofInt v).value = 0 ∨ (Bool8.ofInt v).value = 1)
    ∧ ((Bool8.ofFloat x).value = 0 ∨ (Bool8.ofFloat x).value = 1)
    ∧ (Bool8.ofBool b).value = boolToUint8 b
    ∧ Bool8.beq (Bool8.ofInt w) (Bool8.ofInt w') = true
    ∧ Bool8.blt (Bool8.ofInt w) (Bool8.ofInt w') = false
    ∧ Bool8.bgt (Bool8.ofInt w) (Bool8.ofInt w') = false := by
  have hnorm : ∀ u : Int, (Bool8.ofInt u).value = if u = 0 then 0 else 1 := by
    intro u
    by_cases h : u = 0 <;> simp [Bool8.ofInt, boolToUint8, intToBool, h]
  have hw1 : (Bool8.ofInt w).value = 1 := by
    rw [hnorm w, if_neg hw]
  have hw'1 : (Bool8.ofInt w').value = 1 := by
    rw [hnorm w', if_neg hw']
  refine ⟨hnorm v, ?_, ?_, rfl, ?_, ?_, ?_⟩
  · rw [hnorm v]
    by_cases h : v = 0 <;> simp [h]
  · cases x with
    | nan => simp [Bool8.ofFloat, floatToBool, boolToUint8]
    | fin q =>
      by_cases h : q = 0 <;> simp [Bool8.ofFloat, floatToBool, boolToUint8, h]
  · rw [Bool8.beq, hw1, hw'1]
    rfl
  · rw [Bool8.blt, hw1, hw'1]
    simp
  · rw [Bool8.bgt, hw1, hw'1]
    simp

/-- C10 witness: the normalization theorem applied at `bool8{42}` and
`bool8{43}` (and the negative `char` input `-42`). -/
theorem bool8_normalization_witness :
    Bool8.beq (Bool8.ofInt 42) (Bool8.ofInt 43) = true
    ∧ Bool8.blt (Bool8.ofInt (-42)) (Bool8.ofInt 43) = false :=
  ⟨(bool8_normalization 0 42 43 .nan true (by decide) (by decide)).2.2.2.2.1,
   (bool8_normalization 0 (-42) 43 .nan true (by decide) (by decide)).2.2.2.2.2.1⟩

theorem list_all_eq_range {α : Type} (l : List α) (d : α) (p : α → Bool) :
    l.all p = (List.range l.length).all (fun k => p (l.getD k d)) := by
  induction l with
  | nil => rfl
  | cons a t ih =>
    rw [List.all_cons, List.length_cons, List.range_succ_eq_map, List.all_cons]
    congr 1
    rw [ih, List.all_map]
    rfl

theorem getD_mem_of_lt {α : Type} (l : List α) (d : α) (k : Nat) (h : k < l.length) :
    l.getD k d ∈ l := by
  rw [List.getD_eq_getElem l d h]
  exact List.getElem_mem h

theorem colHashF_fuel_aux (n : Nat) : ∀ (c : Column) (f f' i : Nat),
    colDepth c ≤ f → colDepth c ≤ f' → f ≤ n → f' ≤ n →
    colHashF f c i = colHashF f' c i := by
  induction n with
  | zero =>
    intro c f f' i hf hf' hn hn'
    have := colDepth_pos c
    omega
  | succ n ih =>
    intro c f f' i hf hf' hn hn'
    have hp := colDepth_pos c
    obtain ⟨g, rfl⟩ := Nat.exists_eq_succ_of_ne_zero (show f ≠ 0 by omega)
    obtain ⟨g', rfl⟩ := Nat.exists_eq_succ_of_ne_zero (show f' ≠ 0 by omega)
    cases c with
    | prim t vs val => rfl
    | list o v ch =>
      have hch : colDepth (Column.list o v ch) = colDepth ch + 1 := rfl
      rw [hch] at hf hf'
      simp only [colHashF]
      have : ∀ (z : Nat), (List.range (o.getD (i + 1) 0 - o.getD i 0)).foldl
            (fun h k => hashCombine h (colHashF g ch (o.getD i 0 + k))) z =
          (List.range (o.getD (i + 1) 0 - o.getD i 0)).foldl
            (fun h k => hashCombine h (colHashF g' ch (o.getD i 0 + k))) z := by
        induction (List.range (o.getD (i + 1) 0 - o.getD i 0)) with
        | nil => intro z; rfl
        | cons a t iht =>
          intro z
          rw [List.foldl_cons, List.foldl_cons, iht,
            ih ch g g' (o.getD i 0 + a) (by omega) (by omega) (by omega) (by omega)]
      rw [this 11]
    | struct v chs =>
      have hch : colDepth (Column.struct v chs) = colsDepth chs + 1 := rfl
      rw [hch] at hf hf'
      simp only [colHashF]
      have : ∀ (l : List Column), (∀ x ∈ l, colDepth x ≤ colsDepth chs) → ∀ (z : Nat),
          l.foldl (fun h c => hashCombine h (colHashF g c i)) z =
          l.foldl (fun h c => hashCombine h (colHashF g' c i)) z := by
        intro l
        induction l with
        | nil => intro _ z; rfl
        | cons a t iht =>
          intro hmem z
          rw [List.foldl_cons, List.foldl_cons,
            ih a g g' i (by have := hmem a (by simp); omega)
              (by have := hmem a (by simp); omega) (by omega) (by omega),
            iht (fun x hx => hmem x (by simp [hx]))]
      rw [this chs.toList (fun x hx => colDepth_le_colsDepth chs x hx) 13]

theorem colHashF_fuel (c : Column) (f f' i : Nat)
    (hf : colDepth c ≤ f) (hf' : colDepth c ≤ f') :
    colHashF f c i = colHashF f' c i :=
  colHashF_fuel_aux (max f f') c f f' i hf hf' (le_max_left f f') (le_max_right f f')

theorem maskEquivF_fuel_aux (n : Nat) : ∀ (m : Nat → Bool) (c c' : Column) (f f' : Nat),
    colDepth c ≤ f → colDepth c ≤ f' → f ≤ n → f' ≤ n →
    maskEquivF f m c c' = maskEquivF f' m c c' := by
  induction n with
  | zero =>
    intro m c c' f f' hf hf' hn hn'
    have := colDepth_pos c
    omega
  | succ n ih =>
    intro m c c' f f' hf hf' hn hn'
    have hp := colDepth_pos c
    obtain ⟨g, rfl⟩ := Nat.exists_eq_succ_of_ne_zero (show f ≠ 0 by omega)
    obtain ⟨g', rfl⟩ := Nat.exists_eq_succ_of_ne_zero (show f' ≠ 0 by omega)
    cases c with
    | prim t vs val => cases c' <;> rfl
    | list o v ch =>
      cases c' with
      | prim t' vs' val' => rfl
      | struct v' chs' => rfl
      | list o' v' ch' =>
        have hch : colDepth (Column.list o v ch) = colDepth ch + 1 := rfl
        rw [hch] at hf hf'
        simp only [maskEquivF]
        rw [ih _ ch ch' g g' (by omega) (by omega) (by omega) (by omega)]
    | struct v chs =>
      cases c' with
      | prim t' vs' val' => rfl
      | list o' v' ch' => rfl
      | struct v' chs' =>
        have hch : colDepth (Column.struct v chs) = colsDepth chs + 1 := rfl
        rw [hch] at hf hf'
        simp only [maskEquivF]
        congr 1
        apply list_all_congr
        intro k hk
        rw [List.mem_range] at hk
        have hmem : chs.toList.getD k default ∈ chs.toList := getD_mem_of_lt _ _ k hk
        have hd := colDepth_le_colsDepth chs _ hmem
        exact ih _ _ _ g g' (by omega) (by omega) (by omega) (by omega)

theorem maskEquivF_fuel (m : Nat → Bool) (c c' : Column) (f f' : Nat)
    (hf : colDepth c ≤ f) (hf' : colDepth c ≤ f') :
    maskEquivF f m c c' = maskEquivF f' m c c' :=
  maskEquivF_fuel_aux (max f f') m c c' f f' hf hf' (le_max_left f f') (le_max_right f f')

theorem maskEq_colEq_aux (ne na : Bool) (n : Nat) :
    ∀ (m : Nat → Bool) (c c' : Column) (i j : Nat),
    colDepth c ≤ n → colDepth c' ≤ n → maskEquivF n m c c' = true →
    m i = true → m j = true →
    colEqF ne na n c i j = colEqF ne na n c' i j := by
  induction n with
  | zero =>
    intro m c c' i j hf hf' hm hi hj
    have := colDepth_pos c
    omega
  | succ n ih =>
    intro m c c' i j hf hf' hm hi hj
    cases c with
    | prim t vs val =>
      cases c' with
      | list o' v' ch' =>
        simp only [maskEquivF] at hm
        exact absurd hm (by simp)
      | struct v' chs' =>
        simp only [maskEquivF] at hm
        exact absurd hm (by simp)
      | prim t' vs' val' =>
        simp only [maskEquivF, Bool.and_eq_true, decide_eq_true_eq, List.all_eq_true,
          List.mem_range, Bool.or_eq_true, Bool.not_eq_true', beq_iff_eq] at hm
        obtain ⟨⟨⟨ht, hvs⟩, hval⟩, hpt⟩ := hm
        have hvale : ∀ p, m p = true → val.getD p true = val'.getD p true := by
          intro p hp
          by_cases hb : p < max vs.length val.length
          · rcases hpt p hb with h | h
            · rw [hp] at h
              exact absurd h (by simp)
            · exact h.1
          · rw [List.getD_eq_default _ _ (by omega), List.getD_eq_default _ _ (by omega)]
        have hvse : ∀ p, m p = true → val.getD p true = true →
            vs.getD p default = vs'.getD p default := by
          intro p hp hv
          by_cases hb : p < max vs.length val.length
          · rcases hpt p hb with h | h
            · rw [hp] at h
              exact absurd h (by simp)
            · rcases h.2 with h2 | h2
              · rw [hv] at h2
                exact absurd h2 (by simp)
              · exact h2
          · rw [List.getD_eq_default _ _ (by omega), List.getD_eq_default _ _ (by omega)]
        show primEq ne na vs val i j = primEq ne na vs' val' i j
        simp only [primEq, hvale i hi, hvale j hj]
        cases hvi' : val'.getD i true <;> cases hvj' : val'.getD j true <;>
          simp only [Bool.and_self, Bool.and_false, Bool.false_and, Bool.and_true,
            Bool.true_and, Bool.not_false, Bool.not_true, Bool.false_eq_true, if_true,
            if_false, ite_false, ite_true]
        rw [hvse i hi (by rw [hvale i hi, hvi']), hvse j hj (by rw [hvale j hj, hvj'])]
    | list o v ch =>
      cases c' with
      | prim t' vs' val' =>
        simp only [maskEquivF] at hm
        exact absurd hm (by simp)
      | struct v' chs' =>
        simp only [maskEquivF] at hm
        exact absurd hm (by simp)
      | list o' v' ch' =>
        have hdch : colDepth ch ≤ n := by
          have : colDepth (Column.list o v ch) = colDepth ch + 1 := rfl
          omega
        have hdch' : colDepth ch' ≤ n := by
          have : colDepth (Column.list o' v' ch') = colDepth ch' + 1 := rfl
          omega
        simp only [maskEquivF, Bool.and_eq_true, decide_eq_true_eq, List.all_eq_true,
          List.mem_range, Bool.or_eq_true, Bool.not_eq_true', beq_iff_eq] at hm
        obtain ⟨⟨⟨ho, hvlen⟩, hvpt⟩, hmch⟩ := hm
        subst ho
        have hvale : ∀ p, m p = true → v.getD p true = v'.getD p true := by
          intro p hp
          by_cases hb : p < v.length
          · rcases hvpt p hb with h | h
            · rw [hp] at h
              exact absurd h (by simp)
            · exact h
          · rw [List.getD_eq_default _ _ (by omega), List.getD_eq_default _ _ (by omega)]
        simp only [colEqF]
        rw [hvale i hi, hvale j hj]
        cases hvi' : v'.getD i true <;> cases hvj' : v'.getD j true <;>
          simp only [Bool.and_self, Bool.and_false, Bool.false_and, Bool.and_true,
            Bool.true_and, Bool.not_false, Bool.not_true, Bool.false_eq_true, if_true,
            if_false, ite_false, ite_true]
        have hiv : v.getD i true = true := by rw [hvale i hi, hvi']
        have hjv : v.getD j true = true := by rw [hvale j hj, hvj']
        by_cases hn : o.getD (i + 1) 0 - o.getD i 0 = o.getD (j + 1) 0 - o.getD j 0
        · congr 1
          apply list_all_congr
          intro k hk
          rw [List.mem_range] at hk
          have hilt : i + 1 < o.length := by
            by_contra hcon
            rw [List.getD_eq_default o 0 (show o.length ≤ i + 1 by omega)] at hk
            omega
          have hjlt : j + 1 < o.length := by
            by_contra hcon
            rw [List.getD_eq_default o 0 (show o.length ≤ j + 1 by omega)] at hn
            omega
          apply ih
          · exact hdch
          · exact hdch'
          · exact hmch
          · rw [List.any_eq_true]
            refine ⟨i, List.mem_range.mpr (by omega), ?_⟩
            simp only [hi, hiv, Bool.true_and, Bool.and_eq_true, decide_eq_true_eq]
            omega
          · rw [List.any_eq_true]
            refine ⟨j, List.mem_range.mpr (by omega), ?_⟩
            simp only [hj, hjv, Bool.true_and, Bool.and_eq_true, decide_eq_true_eq]
            omega
        · rw [decide_eq_false hn]
          simp only [Bool.false_and]
    | struct v chs =>
      cases c' with
      | prim t' vs' val' =>
        simp only [maskEquivF] at hm
        exact absurd hm (by simp)
      | list o' v' ch' =>
        simp only [maskEquivF] at hm
        exact absurd hm (by simp)
      | struct v' chs' =>
        have hdch : colsDepth chs ≤ n := by
          have : colDepth (Column.struct v chs) = colsDepth chs + 1 := rfl
          omega
        have hdch' : colsDepth chs' ≤ n := by
          have : colDepth (Column.struct v' chs') = colsDepth chs' + 1 := rfl
          omega
        simp only [maskEquivF, Bool.and_eq_true, decide_eq_true_eq, List.all_eq_true,
          List.mem_range, Bool.or_eq_true, Bool.not_eq_true', beq_iff_eq] at hm
        obtain ⟨⟨⟨hvlen, hvpt⟩, hchlen⟩, hchpt⟩ := hm
        have hvale : ∀ p, m p = true → v.getD p true = v'.getD p true := by
          intro p hp
          by_cases hb : p < v.length
          · rcases hvpt p hb with h | h
            · rw [hp] at h
              exact absurd h (by simp)
            · exact h
          · rw [List.getD_eq_default _ _ (by omega), List.getD_eq_default _ _ (by omega)]
        simp only [colEqF]
        rw [hvale i hi, hvale j hj]
        cases hvi' : v'.getD i true <;> cases hvj' : v'.getD j true <;>
          simp only [Bool.and_self, Bool.and_false, Bool.false_and, Bool.and_true,
            Bool.true_and, Bool.not_false, Bool.not_true, Bool.false_eq_true, if_true,
            if_false, ite_false, ite_true]
        have hiv : v.getD i true = true := by rw [hvale i hi, hvi']
        rw [list_all_eq_range chs.toList default, list_all_eq_range chs'.toList default,
          ← hchlen]
        apply list_all_congr
        intro k hk
        rw [List.mem_range] at hk
        have hmem : chs.toList.getD k default ∈ chs.toList := getD_mem_of_lt _ _ k hk
        have hmem' : chs'.toList.getD k default ∈ chs'.toList :=
          getD_mem_of_lt _ _ k (by omega)
        apply ih
        · exact le_trans (colDepth_le_colsDepth chs _ hmem) hdch
        · exact le_trans (colDepth_le_colsDepth chs' _ hmem') hdch'
        · exact hchpt k hk
        · show (m i && v.getD i true) = true
          rw [hi, hiv]
          rfl
        · show (m j && v.getD j true) = true
          have hjv : v.getD j true = true := by rw [hvale j hj, hvj']
          rw [hj, hjv]
          rfl

theorem foldl_hash_congr (f g : Nat → Nat) (l : List Nat) (h : ∀ x ∈ l, f x = g x) :
    ∀ z, l.foldl (fun a k => hashCombine a (f k)) z = l.foldl (fun a k => hashCombine a (g k)) z := by
  induction l with
  | nil => intro z; rfl
  | cons a t ih =>
    intro z
    rw [List.foldl_cons, List.foldl_cons, h a (by simp), ih (fun x hx => h x (by simp [hx]))]

theorem foldl_cols_eq_range (step : Nat → Column → Nat) (l : List Column) :
    ∀ z, l.foldl step z =
      (List.range l.length).foldl (fun a k => step a (l.getD k default)) z := by
  induction l with
  | nil => intro z; rfl
  | cons c t ih =>
    intro z
    rw [List.foldl_cons, List.length_cons, List.range_succ_eq_map, List.foldl_cons, ih,
      List.foldl_map]
    rfl

theorem maskEq_colHash_aux (n : Nat) :
    ∀ (m : Nat → Bool) (c c' : Column) (i : Nat),
    colDepth c ≤ n → colDepth c' ≤ n → maskEquivF n m c c' = true → m i = true →
    colHashF n c i = colHashF n c' i := by
  induction n with
  | zero =>
    intro m c c' i hf hf' hm hi
    have := colDepth_pos c
    omega
  | succ n ih =>
    intro m c c' i hf hf' hm hi
    cases c with
    | prim t vs val =>
      cases c' with
      | list o' v' ch' =>
        simp only [maskEquivF] at hm
        exact absurd hm (by simp)
      | struct v' chs' =>
        simp only [maskEquivF] at hm
        exact absurd hm (by simp)
      | prim t' vs' val' =>
        simp only [maskEquivF, Bool.and_eq_true, decide_eq_true_eq, List.all_eq_true,
          List.mem_range, Bool.or_eq_true, Bool.not_eq_true', beq_iff_eq] at hm
        obtain ⟨⟨⟨ht, hvs⟩, hval⟩, hpt⟩ := hm
        have hvale : ∀ p, m p = true → val.getD p true = val'.getD p true := by
          intro p hp
          by_cases hb : p < max vs.length val.length
          · rcases hpt p hb with h | h
            · rw [hp] at h
              exact absurd h (by simp)
            · exact h.1
          · rw [List.getD_eq_default _ _ (by omega), List.getD_eq_default _ _ (by omega)]
        have hvse : ∀ p, m p = true → val.getD p true = true →
            vs.getD p default = vs'.getD p default := by
          intro p hp hv
          by_cases hb : p < max vs.length val.length
          · rcases hpt p hb with h | h
            · rw [hp] at h
              exact absurd h (by simp)
            · rcases h.2 with h2 | h2
              · rw [hv] at h2
                exact absurd h2 (by simp)
              · exact h2
          · rw [List.getD_eq_default _ _ (by omega), List.getD_eq_default _ _ (by omega)]
        simp only [colHashF]
        rw [hvale i hi]
        cases hvi' : val'.getD i true <;>
          simp only [Bool.false_eq_true, if_true, if_false, ite_false, ite_true]
        rw [hvse i hi (by rw [hvale i hi, hvi'])]
    | list o v ch =>
      cases c' with
      | prim t' vs' val' =>
        simp only [maskEquivF] at hm
        exact absurd hm (by simp)
      | struct v' chs' =>
        simp only [maskEquivF] at hm
        exact absurd hm (by simp)
      | list o' v' ch' =>
        have hdch : colDepth ch ≤ n := by
          have : colDepth (Column.list o v ch) = colDepth ch + 1 := rfl
          omega
        have hdch' : colDepth ch' ≤ n := by
          have : colDepth (Column.list o' v' ch') = colDepth ch' + 1 := rfl
          omega
        simp only [maskEquivF, Bool.and_eq_true, decide_eq_true_eq, List.all_eq_true,
          List.mem_range, Bool.or_eq_true, Bool.not_eq_true', beq_iff_eq] at hm
        obtain ⟨⟨⟨ho, hvlen⟩, hvpt⟩, hmch⟩ := hm
        subst ho
        have hvale : ∀ p, m p = true → v.getD p true = v'.getD p true := by
          intro p hp
          by_cases hb : p < v.length
          · rcases hvpt p hb with h | h
            · rw [hp] at h
              exact absurd h (by simp)
            · exact h
          · rw [List.getD_eq_default _ _ (by omega), List.getD_eq_default _ _ (by omega)]
        simp only [colHashF]
        rw [hvale i hi]
        cases hvi' : v'.getD i true <;>
          simp only [Bool.false_eq_true, if_true, if_false, ite_false, ite_true]
        have hiv : v.getD i true = true := by rw [hvale i hi, hvi']
        apply foldl_hash_congr
        intro k hk
        rw [List.mem_range] at hk
        have hilt : i + 1 < o.length := by
          by_contra hcon
          rw [List.getD_eq_default o 0 (show o.length ≤ i + 1 by omega)] at hk
          omega
        apply ih
        · exact hdch
        · exact hdch'
        · exact hmch
        · rw [List.any_eq_true]
          refine ⟨i, List.mem_range.mpr (by omega), ?_⟩
          simp only [hi, hiv, Bool.true_and, Bool.and_eq_true, decide_eq_true_eq]
          omega
    | struct v chs =>
      cases c' with
      | prim t' vs' val' =>
        simp only [maskEquivF] at hm
        exact absurd hm (by simp)
      | list o' v' ch' =>
        simp only [maskEquivF] at hm
        exact absurd hm (by simp)
      | struct v' chs' =>
        have hdch : colsDepth chs ≤ n := by
          have : colDepth (Column.struct v chs) = colsDepth chs + 1 := rfl
          omega
        have hdch' : colsDepth chs' ≤ n := by
          have : colDepth (Column.struct v' chs') = colsDepth chs' + 1 := rfl
          omega
        simp only [maskEquivF, Bool.and_eq_true, decide_eq_true_eq, List.all_eq_true,
          List.mem_range, Bool.or_eq_true, Bool.not_eq_true', beq_iff_eq] at hm
        obtain ⟨⟨⟨hvlen, hvpt⟩, hchlen⟩, hchpt⟩ := hm
        have hvale : ∀ p, m p = true → v.getD p true = v'.getD p true := by
          intro p hp
          by_cases hb : p < v.length
          · rcases hvpt p hb with h | h
            · rw [hp] at h
              exact absurd h (by simp)
            · exact h
          · rw [List.getD_eq_default _ _ (by omega), List.getD_eq_default _ _ (by omega)]
        simp only [colHashF]
        rw [hvale i hi]
        cases hvi' : v'.getD i true <;>
          simp only [Bool.false_eq_true, if_true, if_false, ite_false, ite_true]
        have hiv : v.getD i true = true := by rw [hvale i hi, hvi']
        rw [foldl_cols_eq_range _ chs.toList, foldl_cols_eq_range _ chs'.toList, ← hchlen]
        apply foldl_hash_congr
        intro k hk
        rw [List.mem_range] at hk
        have hmem : chs.toList.getD k default ∈ chs.toList := getD_mem_of_lt _ _ k hk
        have hmem' : chs'.toList.getD k default ∈ chs'.toList :=
          getD_mem_of_lt _ _ k (by omega)
        apply ih
        · exact le_trans (colDepth_le_colsDepth chs _ hmem) hdch
        · exact le_trans (colDepth_le_colsDepth chs' _ hmem') hdch'
        · exact hchpt k hk
        · show (m i && v.getD i true) = true
          rw [hi, hiv]
          rfl

/-- C4: mask equivalence — two columns identical except in storage
masked by an ancestor null (don't-care descendant payloads) — never
changes equality or hashing at live rows, nor the equivalence classes
and representative selection that `distinct` produces: masked descendant
payloads are never read once an ancestor null is detected. -/
theorem distinct_mask_invariance (ne na : Bool) (m : Nat → Bool) (c c' : Column)
    (i j n : Nat) (hm : maskEquivB m c c' = true) (hi : m i = true) (hj : m j = true) :
    colEq ne na c i j = colEq ne na c' i j
    ∧ colHash c i = colHash c' i
    ∧ ((∀ p, m p = true) →
        (∀ keep, selectIndices keep n (fun a b => rowEq [c] [0] ne na a b) =
          selectIndices keep n (fun a b => rowEq [c'] [0] ne na a b))
        ∧ classOf n (fun a b => rowEq [c] [0] ne na a b) i =
          classOf n (fun a b => rowEq [c'] [0] ne na a b) i) := by
  have hmN : maskEquivF (max (colDepth c) (colDepth c')) m c c' = true := by
    rw [← maskEquivF_fuel m c c' (colDepth c) (max (colDepth c) (colDepth c'))
      (le_refl _) (le_max_left _ _)]
    exact hm
  have hcolEq : ∀ a b, m a = true → m b = true → colEq ne na c a b = colEq ne na c' a b := by
    intro a b ha hb
    rw [colEq, colEq,
      colEqF_fuel ne na c (colDepth c) (max (colDepth c) (colDepth c'))
        (le_refl _) (le_max_left _ _),
      colEqF_fuel ne na c' (colDepth c') (max (colDepth c) (colDepth c'))
        (le_refl _) (le_max_right _ _)]
    exact maskEq_colEq_aux ne na (max (colDepth c) (colDepth c')) m c c' a b
      (le_max_left _ _) (le_max_right _ _) hmN ha hb
  refine ⟨hcolEq i j hi hj, ?_, ?_⟩
  · rw [colHash, colHash,
      colHashF_fuel c (colDepth c) (max (colDepth c) (colDepth c'))
        i (le_refl _) (le_max_left _ _),
      colHashF_fuel c' (colDepth c') (max (colDepth c) (colDepth c'))
        i (le_refl _) (le_max_right _ _)]
    exact maskEq_colHash_aux (max (colDepth c) (colDepth c')) m c c' i
      (le_max_left _ _) (le_max_right _ _) hmN hi
  · intro hall
    have hre : (fun a b => rowEq [c] [0] ne na a b) =
        (fun a b => rowEq [c'] [0] ne na a b) := by
      funext a b
      rw [rowEq_single, rowEq_single]
      exact hcolEq a b (hall a) (hall b)
    exact ⟨fun keep => by rw [hre], by rw [hre]⟩

/-- C4 witness: the mask-invariance theorem applied to two struct
columns differing only in the don't-care payload under the null row. -/
theorem distinct_mask_invariance_witness :
    colEq true false maskedStructA 0 1 = colEq true false maskedStructB 0 1
    ∧ colHash maskedStructA 1 = colHash maskedStructB 1
    ∧ classOf 2 (fun a b => rowEq [maskedStructA] [0] true false a b) 1 =
      classOf 2 (fun a b => rowEq [maskedStructB] [0] true false a b) 1 :=
  ⟨(distinct_mask_invariance true false (fun _ => true) maskedStructA maskedStructB
      0 1 2 (by decide) rfl rfl).1,
   (distinct_mask_invariance true false (fun _ => true) maskedStructA maskedStructB
      1 0 2 (by decide) rfl rfl).2.1,
   ((distinct_mask_invariance true false (fun _ => true) maskedStructA maskedStructB
      1 0 2 (by decide) rfl rfl).2.2 (fun _ => rfl)).2⟩

theorem sliceL_getD {α : Type} (l : List α) (off cnt k : Nat) (d : α)
    (hk : k < cnt) (hb : off + k < l.length) :
    (sliceL l off cnt).getD k d = l.getD (off + k) d := by
  rw [List.getD_eq_getElem?_getD, List.getD_eq_getElem?_getD, sliceL,
    List.getElem?_take_of_lt hk, List.getElem?_drop]

theorem getD_map_lt {α β : Type} (l : List α) (f : α → β) (k : Nat) (d : β) (d' : α)
    (h : k < l.length) : (l.map f).getD k d = f (l.getD k d') := by
  rw [List.getD_eq_getElem (l.map f) d (by simpa using h), List.getD_eq_getElem l d' h,
    List.getElem_map]

theorem offs_chain (o : List Nat) (N : Nat)
    (hm : ∀ k, k < N → o.getD k 0 ≤ o.getD (k + 1) 0) :
    ∀ a b, a ≤ b → b ≤ N → o.getD a 0 ≤ o.getD b 0 := by
  intro a b hab hbN
  induction b with
  | zero =>
    have : a = 0 := by omega
    subst this
    exact le_refl _
  | succ b ih =>
    by_cases hab' : a = b + 1
    · subst hab'
      exact le_refl _
    · exact le_trans (ih (by omega) (by omega)) (hm b (by omega))

theorem materializeColF_fuel_aux (n : Nat) : ∀ (c : Column) (f f' off cnt : Nat),
    colDepth c ≤ f → colDepth c ≤ f' → f ≤ n → f' ≤ n →
    materializeColF f c off cnt = materializeColF f' c off cnt := by
  induction n with
  | zero =>
    intro c f f' off cnt hf hf' hn hn'
    have := colDepth_pos c
    omega
  | succ n ih =>
    intro c f f' off cnt hf hf' hn hn'
    have hp := colDepth_pos c
    obtain ⟨g, rfl⟩ := Nat.exists_eq_succ_of_ne_zero (show f ≠ 0 by omega)
    obtain ⟨g', rfl⟩ := Nat.exists_eq_succ_of_ne_zero (show f' ≠ 0 by omega)
    cases c with
    | prim t vs val => rfl
    | list o v ch =>
      have hch : colDepth (Column.list o v ch) = colDepth ch + 1 := rfl
      rw [hch] at hf hf'
      simp only [materializeColF]
      rw [ih ch g g' _ _ (by omega) (by omega) (by omega) (by omega)]
    | struct v chs =>
      have hch : colDepth (Column.struct v chs) = colsDepth chs + 1 := rfl
      rw [hch] at hf hf'
      simp only [materializeColF]
      have : chs.toList.map (fun c => materializeColF g c off cnt) =
          chs.toList.map (fun c => materializeColF g' c off cnt) := by
        apply List.map_congr_left
        intro x hx
        have := colDepth_le_colsDepth chs x hx
        exact ih x g g' off cnt (by omega) (by omega) (by omega) (by omega)
      rw [this]

theorem materializeColF_fuel (c : Column) (f f' off cnt : Nat)
    (hf : colDepth c ≤ f) (hf' : colDepth c ≤ f') :
    materializeColF f c off cnt = materializeColF f' c off cnt :=
  materializeColF_fuel_aux (max f f') c f f' off cnt hf hf'
    (le_max_left f f') (le_max_right f f')

theorem wfColF_fuel_aux (n : Nat) : ∀ (c : Column) (f f' N : Nat),
    colDepth c ≤ f → colDepth c ≤ f' → f ≤ n → f' ≤ n →
    wfColF f c N = wfColF f' c N := by
  induction n with
  | zero =>
    intro c f f' N hf hf' hn hn'
    have := colDepth_pos c
    omega
  | succ n ih =>
    intro c f f' N hf hf' hn hn'
    have hp := colDepth_pos c
    obtain ⟨g, rfl⟩ := Nat.exists_eq_succ_of_ne_zero (show f ≠ 0 by omega)
    obtain ⟨g', rfl⟩ := Nat.exists_eq_succ_of_ne_zero (show f' ≠ 0 by omega)
    cases c with
    | prim t vs val => rfl
    | list o v ch =>
      have hch : colDepth (Column.list o v ch) = colDepth ch + 1 := rfl
      rw [hch] at hf hf'
      simp only [wfColF]
      rw [ih ch g g' _ (by omega) (by omega) (by omega) (by omega)]
    | struct v chs =>
      have hch : colDepth (Column.struct v chs) = colsDepth chs + 1 := rfl
      rw [hch] at hf hf'
      simp only [wfColF]
      congr 1
      apply list_all_congr
      intro x hx
      have := colDepth_le_colsDepth chs x hx
      exact ih x g g' N (by omega) (by omega) (by omega) (by omega)

theorem wfColF_fuel (c : Column) (f f' N : Nat)
    (hf : colDepth c ≤ f) (hf' : colDepth c ≤ f') :
    wfColF f c N = wfColF f' c N :=
  wfColF_fuel_aux (max f f') c f f' N hf hf' (le_max_left f f') (le_max_right f f')

theorem rowValF_fuel_aux (n : Nat) : ∀ (c : Column) (f f' i : Nat),
    colDepth c ≤ f → colDepth c ≤ f' → f ≤ n → f' ≤ n →
    rowValF f c i = rowValF f' c i := by
  induction n with
  | zero =>
    intro c f f' i hf hf' hn hn'
    have := colDepth_pos c
    omega
  | succ n ih =>
    intro c f f' i hf hf' hn hn'
    have hp := colDepth_pos c
    obtain ⟨g, rfl⟩ := Nat.exists_eq_succ_of_ne_zero (show f ≠ 0 by omega)
    obtain ⟨g', rfl⟩ := Nat.exists_eq_succ_of_ne_zero (show f' ≠ 0 by omega)
    cases c with
    | prim t vs val => rfl
    | list o v ch =>
      have hch : colDepth (Column.list o v ch) = colDepth ch + 1 := rfl
      rw [hch] at hf hf'
      simp only [rowValF]
      have : (List.range (o.getD (i + 1) 0 - o.getD i 0)).map
            (fun k => rowValF g ch (o.getD i 0 + k)) =
          (List.range (o.getD (i + 1) 0 - o.getD i 0)).map
            (fun k => rowValF g' ch (o.getD i 0 + k)) := by
        apply List.map_congr_left
        intro k _
        exact ih ch g g' _ (by omega) (by omega) (by omega) (by omega)
      rw [this]
    | struct v chs =>
      have hch : colDepth (Column.struct v chs) = colsDepth chs + 1 := rfl
      rw [hch] at hf hf'
      simp only [rowValF]
      have : chs.toList.map (fun c => rowValF g c i) =
          chs.toList.map (fun c => rowValF g' c i) := by
        apply List.map_congr_left
        intro x hx
        have := colDepth_le_colsDepth chs x hx
        exact ih x g g' i (by omega) (by omega) (by omega) (by omega)
      rw [this]

theorem rowValF_fuel (c : Column) (f f' i : Nat)
    (hf : colDepth c ≤ f) (hf' : colDepth c ≤ f') :
    rowValF f c i = rowValF f' c i :=
  rowValF_fuel_aux (max f f') c f f' i hf hf' (le_max_left f f') (le_max_right f f')

theorem schemaF_fuel_aux (n : Nat) : ∀ (c : Column) (f f' : Nat),
    colDepth c ≤ f → colDepth c ≤ f' → f ≤ n → f' ≤ n →
    schemaF f c = schemaF f' c := by
  induction n with
  | zero =>
    intro c f f' hf hf' hn hn'
    have := colDepth_pos c
    omega
  | succ n ih =>
    intro c f f' hf hf' hn hn'
    have hp := colDepth_pos c
    obtain ⟨g, rfl⟩ := Nat.exists_eq_succ_of_ne_zero (show f ≠ 0 by omega)
    obtain ⟨g', rfl⟩ := Nat.exists_eq_succ_of_ne_zero (show f' ≠ 0 by omega)
    cases c with
    | prim t vs val => rfl
    | list o v ch =>
      have hch : colDepth (Column.list o v ch) = colDepth ch + 1 := rfl
      rw [hch] at hf hf'
      simp only [schemaF]
      rw [ih ch g g' (by omega) (by omega) (by omega) (by omega)]
    | struct v chs =>
      have hch : colDepth (Column.struct v chs) = colsDepth chs + 1 := rfl
      rw [hch] at hf hf'
      simp only [schemaF]
      have : chs.toList.map (schemaF g) = chs.toList.map (schemaF g') := by
        apply List.map_congr_left
        intro x hx
        have := colDepth_le_colsDepth chs x hx
        exact ih x g g' (by omega) (by omega) (by omega) (by omega)
      rw [this]

theorem schemaF_fuel (c : Column) (f f' : Nat)
    (hf : colDepth c ≤ f) (hf' : colDepth c ≤ f') :
    schemaF f c = schemaF f' c :=
  schemaF_fuel_aux (max f f') c f f' hf hf' (le_max_left f f') (le_max_right f f')

theorem sliceEq_aux (ne na : Bool) (n : Nat) :
    ∀ (c : Column) (N off cnt i j : Nat),
    colDepth c ≤ n → wfColF n c N = true → off + cnt ≤ N → i < cnt → j < cnt →
    colEqF ne na n (materializeColF n c off cnt) i j = colEqF ne na n c (off + i) (off + j) := by
  induction n with
  | zero =>
    intro c N off cnt i j hd hwf hs hi hj
    have := colDepth_pos c
    omega
  | succ g ih =>
    intro c N off cnt i j hd hwf hs hi hj
    cases c with
    | prim t vs val =>
      simp only [wfColF, Bool.and_eq_true, decide_eq_true_eq] at hwf
      obtain ⟨hvs, hval⟩ := hwf
      show primEq ne na (sliceL vs off cnt) (sliceL val off cnt) i j =
        primEq ne na vs val (off + i) (off + j)
      simp only [primEq]
      rw [sliceL_getD val off cnt i true hi (by omega),
        sliceL_getD val off cnt j true hj (by omega),
        sliceL_getD vs off cnt i default hi (by omega),
        sliceL_getD vs off cnt j default hj (by omega)]
    | list o v ch =>
      have hdch : colDepth ch ≤ g := by
        have : colDepth (Column.list o v ch) = colDepth ch + 1 := rfl
        omega
      simp only [wfColF, Bool.and_eq_true, decide_eq_true_eq, List.all_eq_true,
        List.mem_range] at hwf
      obtain ⟨⟨⟨⟨hol, hvl⟩, hmono⟩, hlast⟩, hwfch⟩ := hwf
      have hchain := offs_chain o N (fun k hk => by
        have := hmono k hk
        simpa using this)
      have hsl : ∀ k, k < cnt + 1 → (sliceL o off (cnt + 1)).getD k 0 = o.getD (off + k) 0 := by
        intro k hk
        exact sliceL_getD o off (cnt + 1) k 0 hk (by omega)
      have hslen : ∀ k, k < cnt + 1 →
          ((sliceL o off (cnt + 1)).map (fun x => x - o.getD off 0)).getD k 0 =
          o.getD (off + k) 0 - o.getD off 0 := by
        intro k hk
        rw [getD_map_lt _ _ k 0 0 (by
          rw [sliceL, List.length_take, List.length_drop]
          omega), hsl k hk]
      show colEqF ne na (g + 1)
        (.list ((sliceL o off (cnt + 1)).map (fun x => x - o.getD off 0)) (sliceL v off cnt)
          (materializeColF g ch (o.getD off 0) (o.getD (off + cnt) 0 - o.getD off 0))) i j =
        colEqF ne na (g + 1) (.list o v ch) (off + i) (off + j)
      simp only [colEqF]
      rw [hslen i (by omega), hslen (i + 1) (by omega), hslen j (by omega),
        hslen (j + 1) (by omega),
        sliceL_getD v off cnt i true hi (by omega),
        sliceL_getD v off cnt j true hj (by omega)]
      have hpi : off + i + 1 = off + (i + 1) := by omega
      have hpj : off + j + 1 = off + (j + 1) := by omega
      rw [hpi, hpj]
      have hbi : o.getD off 0 ≤ o.getD (off + i) 0 := hchain off (off + i) (by omega) (by omega)
      have hbi1 : o.getD off 0 ≤ o.getD (off + (i + 1)) 0 :=
        hchain off (off + (i + 1)) (by omega) (by omega)
      have hbj : o.getD off 0 ≤ o.getD (off + j) 0 := hchain off (off + j) (by omega) (by omega)
      have hbj1 : o.getD off 0 ≤ o.getD (off + (j + 1)) 0 :=
        hchain off (off + (j + 1)) (by omega) (by omega)
      have hii : o.getD (off + i) 0 ≤ o.getD (off + (i + 1)) 0 :=
        hchain (off + i) (off + (i + 1)) (by omega) (by omega)
      have hjj : o.getD (off + j) 0 ≤ o.getD (off + (j + 1)) 0 :=
        hchain (off + j) (off + (j + 1)) (by omega) (by omega)
      have hiu : o.getD (off + (i + 1)) 0 ≤ o.getD (off + cnt) 0 :=
        hchain (off + (i + 1)) (off + cnt) (by omega) (by omega)
      have hju : o.getD (off + (j + 1)) 0 ≤ o.getD (off + cnt) 0 :=
        hchain (off + (j + 1)) (off + cnt) (by omega) (by omega)
      have hboc : o.getD off 0 ≤ o.getD (off + cnt) 0 :=
        hchain off (off + cnt) (by omega) (by omega)
      have hocN : o.getD (off + cnt) 0 ≤ o.getD N 0 := hchain (off + cnt) N (by omega) (by omega)
      have hleni : o.getD (off + (i + 1)) 0 - o.getD off 0 - (o.getD (off + i) 0 - o.getD off 0) =
          o.getD (off + (i + 1)) 0 - o.getD (off + i) 0 := by omega
      have hlenj : o.getD (off + (j + 1)) 0 - o.getD off 0 - (o.getD (off + j) 0 - o.getD off 0) =
          o.getD (off + (j + 1)) 0 - o.getD (off + j) 0 := by omega
      rw [hleni, hlenj]
      cases hvi' : v.getD (off + i) true <;> cases hvj' : v.getD (off + j) true <;>
        simp only [Bool.and_self, Bool.and_false, Bool.false_and, Bool.and_true,
          Bool.true_and, Bool.not_false, Bool.not_true, Bool.false_eq_true, if_true,
          if_false, ite_false, ite_true]
      by_cases hn : o.getD (off + (i + 1)) 0 - o.getD (off + i) 0 =
          o.getD (off + (j + 1)) 0 - o.getD (off + j) 0
      · congr 1
        apply list_all_congr
        intro k hk
        rw [List.mem_range] at hk
        have happ := ih ch (nrowsOf ch) (o.getD off 0) (o.getD (off + cnt) 0 - o.getD off 0)
          (o.getD (off + i) 0 - o.getD off 0 + k) (o.getD (off + j) 0 - o.getD off 0 + k)
          hdch hwfch (by omega) (by omega) (by omega)
        rw [happ]
        have e1 : o.getD off 0 + (o.getD (off + i) 0 - o.getD off 0 + k) =
            o.getD (off + i) 0 + k := by omega
        have e2 : o.getD off 0 + (o.getD (off + j) 0 - o.getD off 0 + k) =
            o.getD (off + j) 0 + k := by omega
        rw [e1, e2]
      · rw [decide_eq_false hn]
        simp only [Bool.false_and]
    | struct v chs =>
      have hdch : colsDepth chs ≤ g := by
        have : colDepth (Column.struct v chs) = colsDepth chs + 1 := rfl
        omega
      simp only [wfColF, Bool.and_eq_true, decide_eq_true_eq, List.all_eq_true] at hwf
      obtain ⟨hvl, hall⟩ := hwf
      show colEqF ne na (g + 1)
        (.struct (sliceL v off cnt)
          (Columns.ofList (chs.toList.map (fun c => materializeColF g c off cnt)))) i j =
        colEqF ne na (g + 1) (.struct v chs) (off + i) (off + j)
      simp only [colEqF, Columns.toList_ofList]
      rw [sliceL_getD v off cnt i true hi (by omega),
        sliceL_getD v off cnt j true hj (by omega)]
      cases hvi' : v.getD (off + i) true <;> cases hvj' : v.getD (off + j) true <;>
        simp only [Bool.and_self, Bool.and_false, Bool.false_and, Bool.and_true,
          Bool.true_and, Bool.not_false, Bool.not_true, Bool.false_eq_true, if_true,
          if_false, ite_false, ite_true]
      rw [List.all_map]
      apply list_all_congr
      intro x hx
      have hdx : colDepth x ≤ g := le_trans (colDepth_le_colsDepth chs x hx) hdch
      exact ih x N off cnt i j hdx (hall x hx) hs hi hj

theorem sliceVal_aux (n : Nat) :
    ∀ (c : Column) (N off cnt i : Nat),
    colDepth c ≤ n → wfColF n c N = true → off + cnt ≤ N → i < cnt →
    rowValF n (materializeColF n c off cnt) i = rowValF n c (off + i) := by
  induction n with
  | zero =>
    intro c N off cnt i hd hwf hs hi
    have := colDepth_pos c
    omega
  | succ g ih =>
    intro c N off cnt i hd hwf hs hi
    cases c with
    | prim t vs val =>
      simp only [wfColF, Bool.and_eq_true, decide_eq_true_eq] at hwf
      obtain ⟨hvs, hval⟩ := hwf
      show Val.vprim (if (sliceL val off cnt).getD i true then
          some ((sliceL vs off cnt).getD i default) else none) =
        Val.vprim (if val.getD (off + i) true then some (vs.getD (off + i) default) else none)
      rw [sliceL_getD val off cnt i true hi (by omega),
        sliceL_getD vs off cnt i default hi (by omega)]
    | list o v ch =>
      have hdch : colDepth ch ≤ g := by
        have : colDepth (Column.list o v ch) = colDepth ch + 1 := rfl
        omega
      simp only [wfColF, Bool.and_eq_true, decide_eq_true_eq, List.all_eq_true,
        List.mem_range] at hwf
      obtain ⟨⟨⟨⟨hol, hvl⟩, hmono⟩, hlast⟩, hwfch⟩ := hwf
      have hchain := offs_chain o N (fun k hk => by
        have := hmono k hk
        simpa using this)
      have hslen : ∀ k, k < cnt + 1 →
          ((sliceL o off (cnt + 1)).map (fun x => x - o.getD off 0)).getD k 0 =
          o.getD (off + k) 0 - o.getD off 0 := by
        intro k hk
        rw [getD_map_lt _ _ k 0 0 (by
          rw [sliceL, List.length_take, List.length_drop]
          omega), sliceL_getD o off (cnt + 1) k 0 hk (by omega)]
      show rowValF (g + 1)
        (.list ((sliceL o off (cnt + 1)).map (fun x => x - o.getD off 0)) (sliceL v off cnt)
          (materializeColF g ch (o.getD off 0) (o.getD (off + cnt) 0 - o.getD off 0))) i =
        rowValF (g + 1) (.list o v ch) (off + i)
      simp only [rowValF]
      rw [hslen i (by omega), hslen (i + 1) (by omega),
        sliceL_getD v off cnt i true hi (by omega)]
      have hpi : off + i + 1 = off + (i + 1) := by omega
      rw [hpi]
      have hbi : o.getD off 0 ≤ o.getD (off + i) 0 := hchain off (off + i) (by omega) (by omega)
      have hii : o.getD (off + i) 0 ≤ o.getD (off + (i + 1)) 0 :=
        hchain (off + i) (off + (i + 1)) (by omega) (by omega)
      have hiu : o.getD (off + (i + 1)) 0 ≤ o.getD (off + cnt) 0 :=
        hchain (off + (i + 1)) (off + cnt) (by omega) (by omega)
      have hocN : o.getD (off + cnt) 0 ≤ o.getD N 0 := hchain (off + cnt) N (by omega) (by omega)
      have hleni : o.getD (off + (i + 1)) 0 - o.getD off 0 - (o.getD (off + i) 0 - o.getD off 0) =
          o.getD (off + (i + 1)) 0 - o.getD (off + i) 0 := by omega
      rw [hleni]
      cases hvi' : v.getD (off + i) true <;>
        simp only [Bool.false_eq_true, if_true, if_false, ite_false, ite_true]
      congr 1
      congr 1
      apply List.map_congr_left
      intro k hk
      rw [List.mem_range] at hk
      have happ := ih ch (nrowsOf ch) (o.getD off 0) (o.getD (off + cnt) 0 - o.getD off 0)
        (o.getD (off + i) 0 - o.getD off 0 + k) hdch hwfch (by omega) (by omega)
      rw [happ]
      have e1 : o.getD off 0 + (o.getD (off + i) 0 - o.getD off 0 + k) =
          o.getD (off + i) 0 + k := by omega
      rw [e1]
    | struct v chs =>
      have hdch : colsDepth chs ≤ g := by
        have : colDepth (Column.struct v chs) = colsDepth chs + 1 := rfl
        omega
      simp only [wfColF, Bool.and_eq_true, decide_eq_true_eq, List.all_eq_true] at hwf
      obtain ⟨hvl, hall⟩ := hwf
      show rowValF (g + 1)
        (.struct (sliceL v off cnt)
          (Columns.ofList (chs.toList.map (fun c => materializeColF g c off cnt)))) i =
        rowValF (g + 1) (.struct v chs) (off + i)
      simp only [rowValF, Columns.toList_ofList]
      rw [sliceL_getD v off cnt i true hi (by omega)]
      cases hvi' : v.getD (off + i) true <;>
        simp only [Bool.false_eq_true, if_true, if_false, ite_false, ite_true]
      congr 1
      congr 1
      rw [List.map_map]
      apply List.map_congr_left
      intro x hx
      have hdx : colDepth x ≤ g := le_trans (colDepth_le_colsDepth chs x hx) hdch
      exact ih x N off cnt i hdx (hall x hx) hs hi

theorem schema_mat_aux (n : Nat) : ∀ (c : Column) (off cnt : Nat), colDepth c ≤ n →
    schemaF n (materializeColF n c off cnt) = schemaF n c := by
  induction n with
  | zero =>
    intro c off cnt hd
    have := colDepth_pos c
    omega
  | succ g ih =>
    intro c off cnt hd
    cases c with
    | prim t vs val => rfl
    | list o v ch =>
      have hdch : colDepth ch ≤ g := by
        have : colDepth (Column.list o v ch) = colDepth ch + 1 := rfl
        omega
      show Schema.sList (schemaF g (materializeColF g ch _ _)) = Schema.sList (schemaF g ch)
      rw [ih ch _ _ hdch]
    | struct v chs =>
      have hdch : colsDepth chs ≤ g := by
        have : colDepth (Column.struct v chs) = colsDepth chs + 1 := rfl
        omega
      show Schema.sStruct ((Columns.ofList
          (chs.toList.map (fun c => materializeColF g c off cnt))).toList.map (schemaF g)) =
        Schema.sStruct (chs.toList.map (schemaF g))
      rw [Columns.toList_ofList, List.map_map]
      congr 1
      apply List.map_congr_left
      intro x hx
      exact ih x off cnt (le_trans (colDepth_le_colsDepth chs x hx) hdch)

theorem colsDepth_toList : ∀ (chs : Columns),
    colsDepth chs = chs.toList.foldr (fun c acc => max (colDepth c) acc) 0
  | .nil => rfl
  | .cons c cs => by
    show max (colDepth c) (colsDepth cs) = _
    rw [colsDepth_toList cs]
    rfl

theorem colsDepth_ofList (l : List Column) :
    colsDepth (Columns.ofList l) = l.foldr (fun c acc => max (colDepth c) acc) 0 := by
  rw [colsDepth_toList, Columns.toList_ofList]

theorem foldr_max_congr (f g : Column → Nat) (l : List Column)
    (h : ∀ x ∈ l, f x = g x) :
    l.foldr (fun c acc => max (f c) acc) 0 = l.foldr (fun c acc => max (g c) acc) 0 := by
  induction l with
  | nil => rfl
  | cons a t ih =>
    rw [List.foldr_cons, List.foldr_cons, h a (by simp), ih (fun x hx => h x (by simp [hx]))]

theorem colDepth_materializeF (n : Nat) : ∀ (c : Column) (off cnt : Nat), colDepth c ≤ n →
    colDepth (materializeColF n c off cnt) = colDepth c := by
  induction n with
  | zero =>
    intro c off cnt hd
    have := colDepth_pos c
    omega
  | succ g ih =>
    intro c off cnt hd
    cases c with
    | prim t vs val => rfl
    | list o v ch =>
      have hdch : colDepth ch ≤ g := by
        have : colDepth (Column.list o v ch) = colDepth ch + 1 := rfl
        omega
      show colDepth (materializeColF g ch _ _) + 1 = colDepth ch + 1
      rw [ih ch _ _ hdch]
    | struct v chs =>
      have hdch : colsDepth chs ≤ g := by
        have : colDepth (Column.struct v chs) = colsDepth chs + 1 := rfl
        omega
      show colsDepth (Columns.ofList
          (chs.toList.map (fun c => materializeColF g c off cnt))) + 1 = colsDepth chs + 1
      rw [colsDepth_ofList, colsDepth_toList chs]
      congr 1
      have : (chs.toList.map (fun c => materializeColF g c off cnt)).foldr
            (fun c acc => max (colDepth c) acc) 0 =
          chs.toList.foldr (fun c acc => max (colDepth (materializeColF g c off cnt)) acc) 0 := by
        rw [List.foldr_map]
      rw [this]
      apply foldr_max_congr
      intro x hx
      exact ih x off cnt (le_trans (colDepth_le_colsDepth chs x hx) hdch)

theorem colEq_materialize (ne na : Bool) (c : Column) (N off cnt a b : Nat)
    (hwf : wfCol c N = true) (hs : off + cnt ≤ N) (ha : a < cnt) (hb : b < cnt) :
    colEq ne na (materializeCol c off cnt) a b = colEq ne na c (off + a) (off + b) := by
  have hdm : colDepth (materializeCol c off cnt) = colDepth c :=
    colDepth_materializeF (colDepth c) c off cnt (le_refl _)
  rw [colEq, colEq, hdm]
  exact sliceEq_aux ne na (colDepth c) c N off cnt a b (le_refl _) hwf hs ha hb

theorem rowVal_materialize (c : Column) (N off cnt a : Nat)
    (hwf : wfCol c N = true) (hs : off + cnt ≤ N) (ha : a < cnt) :
    rowVal (materializeCol c off cnt) a = rowVal c (off + a) := by
  have hdm : colDepth (materializeCol c off cnt) = colDepth c :=
    colDepth_materializeF (colDepth c) c off cnt (le_refl _)
  rw [rowVal, rowVal, hdm]
  exact sliceVal_aux (colDepth c) c N off cnt a (le_refl _) hwf hs ha

theorem schema_materialize (c : Column) (off cnt : Nat) :
    schema (materializeCol c off cnt) = schema c := by
  have hdm : colDepth (materializeCol c off cnt) = colDepth c :=
    colDepth_materializeF (colDepth c) c off cnt (le_refl _)
  rw [schema, schema, hdm]
  exact schema_mat_aux (colDepth c) c off cnt (le_refl _)

theorem mem_selectIndices_lt {keep : Keep} {n : Nat} {re : Nat → Nat → Bool} {i : Nat}
    (h : i ∈ selectIndices keep n re) : i < n := by
  cases keep <;>
    (rw [selectIndices, List.mem_filter, List.mem_range] at h
     exact h.1)

theorem selectIndices_congr_lt {n : Nat} {re re' : Nat → Nat → Bool}
    (h : ∀ a b, a < n → b < n → re a b = re' a b) (keep : Keep) :
    selectIndices keep n re = selectIndices keep n re' := by
  cases keep with
  | any =>
    apply List.filter_congr
    intro x hx
    rw [List.mem_range] at hx
    apply list_all_congr
    intro j hj
    rw [List.mem_range] at hj
    rw [h j x (by omega) hx]
  | first =>
    apply List.filter_congr
    intro x hx
    rw [List.mem_range] at hx
    apply list_all_congr
    intro j hj
    rw [List.mem_range] at hj
    rw [h j x (by omega) hx]
  | last =>
    apply List.filter_congr
    intro x hx
    rw [List.mem_range] at hx
    apply list_all_congr
    intro j hj
    rw [List.mem_range] at hj
    rw [h x j hx hj]
  | none =>
    apply List.filter_congr
    intro x hx
    rw [List.mem_range] at hx
    apply list_all_congr
    intro j hj
    rw [List.mem_range] at hj
    rw [h x j hx hj]

/-- C9: calling `distinct` on a sliced view (row window `[off, off+n)`
of well-formed underlying buffers) produces exactly the same result as
materializing the slice into a standalone table first and calling
`distinct` on that: same schemas, same classes and selected rows, and
rows outside the logical window never influence the result. -/
theorem distinct_slicing (cols : List Column) (N off n : Nat) (keys : List Nat)
    (keep : Keep) (ne na : Bool)
    (hwf : ∀ c ∈ cols, wfCol c N = true) (hs : off + n ≤ N) :
    distinct cols off n keys keep ne na =
      distinct (cols.map (fun c => materializeCol c off n)) 0 n keys keep ne na := by
  rw [distinct, distinct]
  have hempty : (cols.map (fun c => materializeCol c off n)).isEmpty = cols.isEmpty := by
    cases cols <;> rfl
  have hschemas : (cols.map (fun c => materializeCol c off n)).map schema = cols.map schema := by
    rw [List.map_map]
    apply List.map_congr_left
    intro c _
    exact schema_materialize c off n
  rw [hempty, hschemas, List.length_map]
  by_cases h1 : (n == 0 || cols.isEmpty || keys.isEmpty) = true
  · rw [h1]
    simp
  · rw [Bool.not_eq_true] at h1
    rw [h1]
    simp only [Bool.false_eq_true, if_false, ite_false]
    by_cases h2 : (keys.any fun k => decide (cols.length ≤ k)) = true
    · rw [h2]
      simp
    · rw [Bool.not_eq_true] at h2
      rw [h2]
      simp only [Bool.false_eq_true, if_false, ite_false]
      have hkv : ∀ k ∈ keys, k < cols.length := by
        rw [List.any_eq_false] at h2
        intro k hk
        have := h2 k hk
        simpa using this
      have hre : ∀ a b, a < n → b < n →
          rowEq cols keys ne na (off + a) (off + b) =
          rowEq (cols.map (fun c => materializeCol c off n)) keys ne na (0 + a) (0 + b) := by
        intro a b ha hb
        rw [Nat.zero_add, Nat.zero_add, rowEq, rowEq]
        apply list_all_congr
        intro k hk
        rw [getD_map_lt cols _ k default default (hkv k hk)]
        have hmem : cols.getD k default ∈ cols := getD_mem_of_lt cols default k (hkv k hk)
        rw [colEq_materialize ne na (cols.getD k default) N off n a b (hwf _ hmem) hs ha hb]
      have hsel : selectIndices keep n
            (fun i j => rowEq cols keys ne na (off + i) (off + j)) =
          selectIndices keep n (fun i j =>
            rowEq (cols.map (fun c => materializeCol c off n)) keys ne na (0 + i) (0 + j)) :=
        selectIndices_congr_lt (fun a b ha hb => hre a b ha hb) keep
      rw [← hsel]
      congr 1
      congr 1
      apply List.map_congr_left
      intro i hi
      have hin : i < n := mem_selectIndices_lt hi
      rw [List.map_map]
      apply List.map_congr_left
      intro c hc
      show rowVal c (off + i) = rowVal (materializeCol c off n) (0 + i)
      rw [Nat.zero_add, rowVal_materialize c N off n i (hwf c hc) hs hin]

/-- C9 witness: the slicing theorem applied to a concrete two-column
table sliced to the window `[1, 4)`, with don't-care rows outside. -/
theorem distinct_slicing_witness :
    (∀ c ∈ [slicePassenger, sliceListKey], wfCol c 5 = true)
    ∧ distinct [slicePassenger, sliceListKey] 1 3 [1] .first true false =
      distinct ([slicePassenger, sliceListKey].map (fun c => materializeCol c 1 3))
        0 3 [1] .first true false :=
  ⟨by decide,
   distinct_slicing [slicePassenger, sliceListKey] 5 1 3 [1] .first true false
     (by decide) (by decide)⟩

/-- C3 witness: the keep-policy theorem applied to the EmptyKeys fixture
with KEEP_FIRST; the selected representatives are rows 0, 1, 2, 4, 5. -/
theorem distinct_keep_policy_selects_witness :
    distinct [emptyKeysCol] 0 6 [0] .first true false = .ok ⟨[.sPrim .tInt],
      [[.vprim (some (.int 5))], [.vprim none], [.vprim (some (.int 3))],
       [.vprim (some (.int 8))], [.vprim (some (.int 1))]]⟩ :=
  (distinct_keep_policy_selects [emptyKeysCol] [0] true false 0 6).2.2.2.2.2.2.2 .first
    (by decide) (List.cons_ne_nil _ _) (by decide) (by decide)

end Cudf

